import Mathlib

/-!
Shallow embedding of the `unused_column_in_cte` rule of the bqvalid SQL
analyser, together with proofs about its data model and algorithms.

Rust `HashMap` / `HashSet` values are modelled as association lists /
duplicate-free insertion lists; `usize` as `Nat`; tree-sitter nodes as an
inductive tree carrying kind, field name, named-flag, start position and
text; a Rust panic (`unwrap` on `None`) is modelled as `Option.none`
propagated to the caller.
-/

set_option autoImplicit false

namespace Bqvalid

/-! ### Association-list model of Rust `HashMap` (insert replaces the value) -/

/-- Lookup of the first binding of a key (model of `HashMap::get`). -/
def alookup {α : Type} (m : List (String × α)) (k : String) : Option α :=
  (m.find? (fun p => p.1 == k)).map (·.2)

/-- Model of `HashMap::contains_key`. -/
def containsKey {α : Type} (m : List (String × α)) (k : String) : Bool :=
  m.any (fun p => p.1 == k)

/-- Model of `HashMap::insert`: replace the value at an existing key,
otherwise append a new binding. -/
def insertRep {α : Type} (m : List (String × α)) (k : String) (v : α) :
    List (String × α) :=
  match m with
  | [] => [(k, v)]
  | p :: rest => if p.1 == k then (p.1, v) :: rest else p :: insertRep rest k v

/-- Model of `HashSet::insert` on a duplicate-free list of strings. -/
def setInsert (s : List String) (v : String) : List String :=
  if v ∈ s then s else s ++ [v]

/-! ### Column model (`models.rs`) -/

/-- One output column of a CTE or of the final query (`ColumnInfo` in
`models.rs`); `row`/`col` are stored 1-based. -/
structure ColumnInfo where
  table_name : Option String
  column_name : String
  original_column_name : Option String
  row : Nat
  col : Nat
deriving DecidableEq, Repr

/-- `ColumnInfo::new`: takes a 0-based position and stores it 1-based. -/
def ColumnInfo.mkNew (table_name : Option String) (column_name : String)
    (original_column_name : Option String) (row col : Nat) : ColumnInfo :=
  ⟨table_name, column_name, original_column_name, row + 1, col + 1⟩

/-- `Ord for ColumnInfo`: compare by `row`, then by `col`. -/
def ColumnInfo.cmp (a b : ColumnInfo) : Ordering :=
  (compare a.row b.row).then (compare a.col b.col)

/-- `a < b` for `ColumnInfo` (derived from `PartialOrd` via `cmp`). -/
def ColumnInfo.ltb (a b : ColumnInfo) : Bool :=
  ColumnInfo.cmp a b == Ordering.lt

/-- The non-strict `(row, col)` comparison `unused.sort()` sorts by
(`cmp a b ≠ Greater`), stated propositionally. -/
def ColumnInfo.le (a b : ColumnInfo) : Prop :=
  a.row < b.row ∨ (a.row = b.row ∧ a.col ≤ b.col)

instance : DecidableRel ColumnInfo.le := by
  intro a b
  unfold ColumnInfo.le
  infer_instance

instance : IsTotal ColumnInfo ColumnInfo.le where
  total := by
    intro a b
    unfold ColumnInfo.le
    omega

instance : IsTrans ColumnInfo ColumnInfo.le where
  trans := by
    intro a b c hab hbc
    unfold ColumnInfo.le at *
    omega

/-! ### Resolution utilities (`utils.rs`) -/

/-- Rust `str::split('.')`: split the character list on the dot. -/
def splitDot (s : String) : List String :=
  (s.data.splitOn '.').map (fun cs => String.mk cs)

/-- Rust `str::contains('.')`. -/
def containsDot (s : String) : Bool :=
  s.data.contains '.'

/-- `extract_column_name`: last dot-separated segment of a column reference. -/
def extract_column_name (column_ref : String) : String :=
  (splitDot column_ref).getLastD column_ref

/-- `extract_table_name`: first dot-separated segment of a table reference. -/
def extract_table_name (table_ref : String) : String :=
  (splitDot table_ref).headD table_ref

/-- The unqualified-scan loop of `find_original_table`: first table that is a
known CTE containing an exact base-name match, or first table with no known
column schema; otherwise the empty string. -/
def scanTables (base : String) (ctes : List (String × List ColumnInfo)) :
    List String → String
  | [] => ""
  | t :: ts =>
    match alookup ctes t with
    | some cols =>
      if cols.any (fun ci => extract_column_name ci.column_name == base) then t
      else scanTables base ctes ts
    | none => t

/-- `find_original_table`: resolve a column reference to its owning table. -/
def find_original_table (column : String) (tables : List String)
    (alias_map : List (String × String))
    (cte_columns : List (String × List ColumnInfo)) : String :=
  let qualified : Option String :=
    if containsDot column then
      let table_name := ((splitDot column).headD "")
      let actual := (alookup alias_map table_name).getD table_name
      if tables.contains actual || containsKey cte_columns actual then
        some actual
      else none
    else none
  match qualified with
  | some t => t
  | none => scanTables (extract_column_name column) cte_columns tables

/-! ### Dependency graph (`graph.rs`) -/

/-- Per-CTE state: the CTE's output columns plus the set of column names
marked used (`CTENode` in `graph.rs`). -/
structure CTENode where
  columns : List ColumnInfo
  used_column_names : List String
deriving DecidableEq, Repr

/-- `DependencyGraph`: a mapping from CTE name to `CTENode`. -/
structure DependencyGraph where
  nodes : List (String × CTENode)
deriving DecidableEq, Repr

/-- `DependencyGraph::new`. -/
def DependencyGraph.new : DependencyGraph := ⟨[]⟩

/-- `DependencyGraph::add_cte`: insert a fresh node (a `HashMap::insert`,
so an existing binding for the same name is replaced). -/
def DependencyGraph.add_cte (g : DependencyGraph) (cte_name : String)
    (columns : List ColumnInfo) : DependencyGraph :=
  ⟨insertRep g.nodes cte_name ⟨columns, []⟩⟩

/-- `DependencyGraph::mark_column_used`: insert the column name into the
node's used-set when the table is present; no-op otherwise. -/
def DependencyGraph.mark_column_used (g : DependencyGraph)
    (table_name column_name : String) : DependencyGraph :=
  match alookup g.nodes table_name with
  | some node =>
    ⟨insertRep g.nodes table_name
      ⟨node.columns, setInsert node.used_column_names column_name⟩⟩
  | none => g

/-- `DependencyGraph::is_column_used`. -/
def DependencyGraph.is_column_used (g : DependencyGraph)
    (table_name column_name : String) : Bool :=
  match alookup g.nodes table_name with
  | some node => column_name ∈ node.used_column_names
  | none => false

/-- Whether one column of a node counts as used in
`collect_unused_columns`: its exact output name is in the used-set, or its
base name equals the base name of some used entry. -/
def CTENode.isUsedCol (node : CTENode) (col : ColumnInfo) : Bool :=
  col.column_name ∈ node.used_column_names ||
    node.used_column_names.any
      (fun used => extract_column_name used == extract_column_name col.column_name)

/-- `DependencyGraph::collect_unused_columns`: gather the not-used columns
of every node and sort them by `(row, col)`. -/
def DependencyGraph.collect_unused_columns (g : DependencyGraph) :
    List ColumnInfo :=
  let unused := g.nodes.flatMap
    (fun p => p.2.columns.filter (fun col => !(p.2.isUsedCol col)))
  unused.insertionSort ColumnInfo.le

/-! ### Tree-sitter node model

A node carries its kind tag, the field name attaching it to its parent (if
any), whether it is a named node, its 0-based start position, the source
text covered by its byte range (`utf8_text`), and its ordered children. -/

/-- A 0-based `tree_sitter::Point`. -/
structure Point where
  row : Nat
  col : Nat
deriving DecidableEq, Repr

/-- A tree-sitter syntax node. -/
inductive TSNode where
  | mk (kind : String) (fieldName : Option String) (named : Bool)
      (pos : Point) (text : String) (children : List TSNode)

/-- Node kind tag. -/
def TSNode.kind : TSNode → String
  | .mk k _ _ _ _ _ => k

/-- Field name under the parent. -/
def TSNode.fieldName : TSNode → Option String
  | .mk _ f _ _ _ _ => f

/-- Whether the node is a named node. -/
def TSNode.named : TSNode → Bool
  | .mk _ _ n _ _ _ => n

/-- `start_position` (0-based). -/
def TSNode.pos : TSNode → Point
  | .mk _ _ _ p _ _ => p

/-- `utf8_text` over the node's byte range. -/
def TSNode.text : TSNode → String
  | .mk _ _ _ _ t _ => t

/-- All children in order (`Node::children`). -/
def TSNode.children : TSNode → List TSNode
  | .mk _ _ _ _ _ cs => cs

/-- `Node::named_children`. -/
def TSNode.namedChildren (n : TSNode) : List TSNode :=
  n.children.filter (·.named)

/-- `Node::named_child(0)`. -/
def TSNode.namedChild0 (n : TSNode) : Option TSNode :=
  n.namedChildren.head?

/-- `Node::child_by_field_name`: first child carrying the field. -/
def TSNode.childByFieldName (n : TSNode) (f : String) : Option TSNode :=
  n.children.find? (fun c => c.fieldName == some f)

theorem TSNode.sizeOf_lt_of_mem_children {c n : TSNode}
    (h : c ∈ n.children) : sizeOf c < sizeOf n := by
  cases n with
  | mk k f nm p t cs =>
    simp only [TSNode.children] at h
    have := List.sizeOf_lt_of_mem h
    simp only [TSNode.mk.sizeOf_spec]
    omega

mutual

/-- Pre-order listing of a subtree (`tree_sitter_traversal::traverse`,
`Order::Pre`), without ancestor bookkeeping. -/
def TSNode.preorder (n : TSNode) : List TSNode :=
  n :: TSNode.preorderList n.children
termination_by sizeOf n
decreasing_by
  cases n with
  | mk k f nm q t cs => simp only [TSNode.children, TSNode.mk.sizeOf_spec]; omega

/-- Concatenated pre-order listings of a list of subtrees. -/
def TSNode.preorderList (l : List TSNode) : List TSNode :=
  match l with
  | [] => []
  | c :: cs => TSNode.preorder c ++ TSNode.preorderList cs
termination_by sizeOf l
decreasing_by
  · simp only [List.cons.sizeOf_spec]; omega
  · simp only [List.cons.sizeOf_spec]; omega

end

/-- One traversal step: the visited node plus its ancestor chain, nearest
first, each ancestor paired with the index of the path child among its
children. -/
structure Visit where
  node : TSNode
  ancestors : List (TSNode × Nat)

/-- The next named sibling of the visited node (`next_named_sibling`). -/
def Visit.nextNamedSibling (v : Visit) : Option TSNode :=
  match v.ancestors.head? with
  | some (p, i) => (p.children.drop (i + 1)).find? (·.named)
  | none => none

mutual

/-- Pre-order listing of a subtree with ancestor chains. -/
def visitsOf (anc : List (TSNode × Nat)) (n : TSNode) : List Visit :=
  ⟨n, anc⟩ :: visitsChildren anc n 0 n.children
termination_by sizeOf n
decreasing_by
  cases n with
  | mk k f nm q t cs => simp only [TSNode.children, TSNode.mk.sizeOf_spec]; omega

/-- Visits of a run of children of `p`, starting at child index `i`. -/
def visitsChildren (anc : List (TSNode × Nat)) (p : TSNode) (i : Nat)
    (rest : List TSNode) : List Visit :=
  match rest with
  | [] => []
  | c :: cs => visitsOf ((p, i) :: anc) c ++ visitsChildren anc p (i + 1) cs
termination_by sizeOf rest
decreasing_by
  · simp only [List.cons.sizeOf_spec]; omega
  · simp only [List.cons.sizeOf_spec]; omega

end

mutual

/-- Pre-order listing of a subtree pairing each node with its parent and
index among the parent's children (used for subtree scans that consult
`Node::parent` only one level up). -/
def subVisits (parentInfo : Option (TSNode × Nat)) (n : TSNode) :
    List (TSNode × Option (TSNode × Nat)) :=
  (n, parentInfo) :: subVisitsChildren n 0 n.children
termination_by sizeOf n
decreasing_by
  cases n with
  | mk k f nm q t cs => simp only [TSNode.children, TSNode.mk.sizeOf_spec]; omega

/-- Sub-visits of a run of children of `p`, starting at child index `i`. -/
def subVisitsChildren (p : TSNode) (i : Nat) (rest : List TSNode) :
    List (TSNode × Option (TSNode × Nat)) :=
  match rest with
  | [] => []
  | c :: cs => subVisits (some (p, i)) c ++ subVisitsChildren p (i + 1) cs
termination_by sizeOf rest
decreasing_by
  · simp only [List.cons.sizeOf_spec]; omega
  · simp only [List.cons.sizeOf_spec]; omega

end

/-- Scan a list for the first element satisfying `p`, paired with the
following element. -/
def findWithNext (p : TSNode → Bool) : List TSNode → Option (TSNode × Option TSNode)
  | [] => none
  | c :: cs => if p c then some (c, cs.head?) else findWithNext p cs

/-- Among the named children of `n`, the first satisfying `p`, paired with
its next named sibling. -/
def findNamedWithNext (p : TSNode → Bool) (n : TSNode) :
    Option (TSNode × Option TSNode) :=
  findWithNext p n.namedChildren

/-! ### Tree-reading utilities (`utils.rs`) -/

/-- `get_cte_name`: text of the `alias_name` field child. The Rust code
calls `unwrap()` on the field lookup, so a `cte` node without that field
panics: modelled as `none`. -/
def get_cte_name (cte_node : TSNode) (sql : String) : Option String :=
  (cte_node.childByFieldName "alias_name").map (fun n => n.text)

/-- Index of the first child of `p` carrying field `f`. -/
def fieldChildIdx (p : TSNode) (f : String) : Option Nat :=
  p.children.findIdx? (fun c => c.fieldName == some f)

/-- `utils::is_function_name`, for the node at index `i` under `parentInfo`:
true when the node is the `function` field child of a `function_call`
parent, falling back to the first-child check when the field is absent. -/
def is_function_name (parentInfo : Option (TSNode × Nat)) : Bool :=
  match parentInfo with
  | some (p, i) =>
    if p.kind == "function_call" then
      match fieldChildIdx p "function" with
      | some j => j == i
      | none => i == 0
    else false
  | none => false

/-- The function-name test inlined in the select/qualify/pivot visitors:
true when the node at index `i` is the `name` field child of a
`function_call` parent (no first-child fallback). -/
def isFnNameByNameField (parentInfo : Option (TSNode × Nat)) : Bool :=
  match parentInfo with
  | some (p, i) =>
    if p.kind == "function_call" then
      match fieldChildIdx p "name" with
      | some j => j == i
      | none => false
    else false
  | none => false

/-- The per-`from_item` step of `extract_table`: record the base table
identifier and, when an `as_alias` child follows, the alias binding. -/
def extractTableStep (sql : String) (acc : List String × List (String × String))
    (n : TSNode) : List String × List (String × String) :=
  if n.kind == "from_item" then
    match n.namedChild0 with
    | some fc =>
      if fc.kind == "identifier" then
        let table_name := fc.text
        let tables := acc.1 ++ [table_name]
        let aliasNode := (n.children.find? (fun c => c.kind == "as_alias")).bind
          (fun a => a.namedChildren.getLast?)
        match aliasNode with
        | some al => (tables, insertRep acc.2 al.text table_name)
        | none => (tables, acc.2)
      else acc
    | none => acc
  else acc

/-- `extract_table`: walk the FROM clause pre-order and collect the table
names in order plus the alias map. -/
def extract_table (fromNode : Option TSNode) (sql : String) :
    List String × List (String × String) :=
  match fromNode with
  | none => ([], [])
  | some f => (TSNode.preorder f).foldl (extractTableStep sql) ([], [])

/-! ### Analysis context (`context.rs`) -/

/-- `AnalysisContext`: the source text, the dependency graph, and the
per-CTE column index kept in sync with the graph. -/
structure AnalysisContext where
  sql : String
  graph : DependencyGraph
  cte_columns : List (String × List ColumnInfo)

/-- `AnalysisContext::new`. -/
def AnalysisContext.new (sql : String) : AnalysisContext :=
  ⟨sql, DependencyGraph.new, []⟩

/-- `AnalysisContext::add_cte`: insert into both the graph and the index. -/
def AnalysisContext.add_cte (ctx : AnalysisContext) (cte_name : String)
    (columns : List ColumnInfo) : AnalysisContext :=
  { ctx with
    graph := ctx.graph.add_cte cte_name columns
    cte_columns := insertRep ctx.cte_columns cte_name columns }

/-- `AnalysisContext::mark_used`. -/
def AnalysisContext.mark_used (ctx : AnalysisContext)
    (table_name column_name : String) : AnalysisContext :=
  { ctx with graph := ctx.graph.mark_column_used table_name column_name }

/-- `AnalysisContext::has_cte`. -/
def AnalysisContext.has_cte (ctx : AnalysisContext) (cte_name : String) : Bool :=
  containsKey ctx.cte_columns cte_name

/-- `AnalysisContext::get_cte_columns`. -/
def AnalysisContext.get_cte_columns (ctx : AnalysisContext) (cte_name : String) :
    Option (List ColumnInfo) :=
  alookup ctx.cte_columns cte_name

/-- `AnalysisContext::collect_unused`. -/
def AnalysisContext.collect_unused (ctx : AnalysisContext) : List ColumnInfo :=
  ctx.graph.collect_unused_columns

/-! ### CTE-definition collector (`visitors/cte_visitor.rs`) -/

/-- `expand_asterisk`: at the star's position, one clone per already-known
column of every listed table, with `table_name` and position overwritten. -/
def expand_asterisk (position : Point) (cte_names : List String)
    (cte_columns : List (String × List ColumnInfo)) : List ColumnInfo :=
  cte_names.foldl (fun expanded cte_name =>
    match alookup cte_columns cte_name with
    | some cols => expanded ++ cols.map (fun col =>
        { col with table_name := some cte_name,
                   row := position.row + 1, col := position.col + 1 })
    | none => expanded) []

/-- `extract_column_name_without_alias`: `(column, original_column,
source_column)` for an unaliased select expression. -/
def extract_column_name_without_alias (select_expr : TSNode) (sql : String) :
    String × String × Option String :=
  let expr := select_expr.text
  let column_name := extract_column_name expr
  let source := if column_name ≠ expr then some column_name else none
  (column_name, expr, source)

/-- `extract_alias_info`: `(alias, original expression, base source name)`
for an aliased select expression. -/
def extract_alias_info (alias_node select_expr : TSNode) (sql : String) :
    String × String × Option String :=
  let alias_name := ((alias_node.namedChildren.getLast?).map (fun n => n.text)).getD ""
  let original := ((select_expr.namedChild0).map (fun n => n.text)).getD alias_name
  (alias_name, original, some (extract_column_name original))

/-- `extract_column_info_from_select_expression`. -/
def extract_column_info_from_select_expression (select_expr : TSNode)
    (sql : String) (tables : List String) (alias_map : List (String × String))
    (cte_columns : List (String × List ColumnInfo)) : ColumnInfo :=
  let asAlias := select_expr.children.find? (fun n => n.kind == "as_alias")
  let info :=
    match asAlias with
    | none => extract_column_name_without_alias select_expr sql
    | some a => extract_alias_info a select_expr sql
  let table := find_original_table info.2.1 tables alias_map cte_columns
  ColumnInfo.mkNew (some table) info.1 info.2.2
    select_expr.pos.row select_expr.pos.col

theorem sizeOf_filter_le (p : TSNode → Bool) (l : List TSNode) :
    sizeOf (l.filter p) ≤ sizeOf l := by
  induction l with
  | nil => simp
  | cons c cs ih =>
    cases hp : p c <;>
      simp [List.filter_cons, hp, List.cons.sizeOf_spec] <;> omega

mutual

/-- `extract_columns`: collect the `ColumnInfo`s of a `select_list` (its
next named sibling — the FROM clause — is passed alongside); on any other
node, recurse into the named children. -/
def extract_columns (node : TSNode) (next : Option TSNode) (sql : String)
    (cte_columns : List (String × List ColumnInfo)) : List ColumnInfo :=
  if node.kind == "select_list" then
    let tb := extract_table next sql
    node.children.foldl (fun columns child =>
      if child.kind == "select_expression" then
        columns ++ [extract_column_info_from_select_expression child sql
          tb.1 tb.2 cte_columns]
      else if child.kind == "select_all" then
        columns ++ expand_asterisk child.pos tb.1 cte_columns
      else columns) []
  else
    extractColumnsOverNamed sql cte_columns node.namedChildren
termination_by sizeOf node
decreasing_by
  cases node with
  | mk k f nm q t cs =>
    have := sizeOf_filter_le (·.named) cs
    simp only [TSNode.namedChildren, TSNode.children, TSNode.mk.sizeOf_spec]
    omega

/-- Recursion of `extract_columns` over a run of named children, each
paired with its next named sibling. -/
def extractColumnsOverNamed (sql : String)
    (cte_columns : List (String × List ColumnInfo)) (l : List TSNode) :
    List ColumnInfo :=
  match l with
  | [] => []
  | c :: cs =>
    extract_columns c cs.head? sql cte_columns ++
      extractColumnsOverNamed sql cte_columns cs
termination_by sizeOf l
decreasing_by
  · simp only [List.cons.sizeOf_spec]; omega
  · simp only [List.cons.sizeOf_spec]; omega

end

/-- `CteVisitor::visit`: on a `cte` node, extract the name (panicking —
`none` — when the `alias_name` field is missing), locate the defining
SELECT's column list, and register the columns. -/
def cteVisit (v : Visit) (ctx : AnalysisContext) : Option AnalysisContext :=
  if v.node.kind != "cte" then some ctx else
    match get_cte_name v.node ctx.sql with
    | none => none
    | some cte_name =>
      match v.node.namedChildren.find?
          (fun c => c.kind == "select" || c.kind == "query_expr") with
      | none => some ctx
      | some query =>
        let selectNode :=
          if query.kind == "query_expr" then
            query.namedChildren.find? (fun c => c.kind == "select")
          else some query
        match selectNode with
        | none => some ctx
        | some sel =>
          match findNamedWithNext (fun c => c.kind == "select_list") sel with
          | none => some ctx
          | some (select_list, nextSib) =>
            some (ctx.add_cte cte_name
              (extract_columns select_list nextSib ctx.sql ctx.cte_columns))

/-! ### SELECT-list usage marker (`visitors/select_visitor.rs`) -/

/-- `find_parent_cte_name`: name of the nearest enclosing `cte` node, or
the empty string. -/
def find_parent_cte_name (v : Visit) (sql : String) : String :=
  match v.ancestors.find? (fun p => p.1.kind == "cte") with
  | some p => (((p.1.childByFieldName "alias_name").map (fun n => n.text))).getD ""
  | none => ""

mutual

/-- `extract_field_references_from_expression` (identical to the local
`extract_and_mark_fields` of the QUALIFY visitor): resolve every `field` /
`identifier` under the node — skipping `name`-field children of
`function_call`s, whose subtrees are not descended into — and mark it used. -/
def extractFieldRefs (tables : List String) (alias_map : List (String × String))
    (parentInfo : Option (TSNode × Nat)) (node : TSNode)
    (ctx : AnalysisContext) : AnalysisContext :=
  if node.kind == "field" || node.kind == "identifier" then
    if isFnNameByNameField parentInfo then ctx
    else
      let field_text := node.text
      let col_name := extract_column_name field_text
      let table := find_original_table field_text tables alias_map ctx.cte_columns
      let ctx2 := if table ≠ "" then ctx.mark_used table col_name else ctx
      extractFieldRefsChildren tables alias_map node 0 node.children ctx2
  else
    extractFieldRefsChildren tables alias_map node 0 node.children ctx
termination_by sizeOf node
decreasing_by
  all_goals cases node with
  | mk k f nm q t cs => simp only [TSNode.children, TSNode.mk.sizeOf_spec]; omega

/-- Children recursion of `extractFieldRefs`. -/
def extractFieldRefsChildren (tables : List String)
    (alias_map : List (String × String)) (p : TSNode) (i : Nat)
    (rest : List TSNode) (ctx : AnalysisContext) : AnalysisContext :=
  match rest with
  | [] => ctx
  | c :: cs =>
    extractFieldRefsChildren tables alias_map p (i + 1) cs
      (extractFieldRefs tables alias_map (some (p, i)) c ctx)
termination_by sizeOf rest
decreasing_by
  · simp only [List.cons.sizeOf_spec]; omega
  · simp only [List.cons.sizeOf_spec]; omega

end

/-- `extract_and_mark_expression_columns`: for a SELECT inside a CTE, mark
the column references of each select expression (single hop, no requeue). -/
def extract_and_mark_expression_columns (select_list : TSNode)
    (next : Option TSNode) (v : Visit) (ctx : AnalysisContext) :
    AnalysisContext :=
  let cte_name := find_parent_cte_name v ctx.sql
  if cte_name == "" then ctx
  else
    let tb := extract_table next ctx.sql
    select_list.children.foldl (fun c2 child =>
      if child.kind == "select_expression" then
        extractFieldRefs tb.1 tb.2 none child c2
      else c2) ctx

mutual

/-- `extract_all_fields_into_vec`: collect a `ColumnInfo` for every
resolvable `field` / `identifier` in the subtree, skipping `name`-field
children of `function_call`s. -/
def extractAllFields (tables : List String) (alias_map : List (String × String))
    (cte_columns : List (String × List ColumnInfo))
    (parentInfo : Option (TSNode × Nat)) (node : TSNode)
    (columns : List ColumnInfo) : List ColumnInfo :=
  if node.kind == "field" || node.kind == "identifier" then
    if isFnNameByNameField parentInfo then columns
    else
      let field_text := node.text
      let col_name := extract_column_name field_text
      let table := find_original_table field_text tables alias_map cte_columns
      let columns2 :=
        if table ≠ "" then
          columns ++ [ColumnInfo.mkNew (some table) col_name none
            node.pos.row node.pos.col]
        else columns
      extractAllFieldsChildren tables alias_map cte_columns node 0
        node.children columns2
  else
    extractAllFieldsChildren tables alias_map cte_columns node 0
      node.children columns
termination_by sizeOf node
decreasing_by
  all_goals cases node with
  | mk k f nm q t cs => simp only [TSNode.children, TSNode.mk.sizeOf_spec]; omega

/-- Children recursion of `extractAllFields`. -/
def extractAllFieldsChildren (tables : List String)
    (alias_map : List (String × String))
    (cte_columns : List (String × List ColumnInfo)) (p : TSNode) (i : Nat)
    (rest : List TSNode) (columns : List ColumnInfo) : List ColumnInfo :=
  match rest with
  | [] => columns
  | c :: cs =>
    extractAllFieldsChildren tables alias_map cte_columns p (i + 1) cs
      (extractAllFields tables alias_map cte_columns (some (p, i)) c columns)
termination_by sizeOf rest
decreasing_by
  · simp only [List.cons.sizeOf_spec]; omega
  · simp only [List.cons.sizeOf_spec]; omega

end

/-- `extract_final_select_columns`: the final-SELECT roots of the backward
reachability — direct references, nested fields, and star expansion. -/
def extract_final_select_columns (select_list : TSNode) (next : Option TSNode)
    (sql : String) (ctx : AnalysisContext) : List ColumnInfo :=
  let tb := extract_table next sql
  select_list.children.foldl (fun columns child =>
    if child.kind == "select_expression" then
      let hasDirectField := child.children.any (fun c => c.kind == "field")
      let columns2 :=
        if !hasDirectField then
          let column_text := child.text
          let col_name := extract_column_name column_text
          let table := find_original_table column_text tb.1 tb.2 ctx.cte_columns
          if table ≠ "" then
            columns ++ [ColumnInfo.mkNew (some table) col_name none
              child.pos.row child.pos.col]
          else columns
        else columns
      extractAllFields tb.1 tb.2 ctx.cte_columns none child columns2
    else if child.kind == "select_all" then
      tb.1.foldl (fun cols table =>
        match ctx.get_cte_columns table with
        | some tcols => cols ++ tcols.map (fun col =>
            ColumnInfo.mkNew (some table) col.column_name none
              child.pos.row child.pos.col)
        | none => cols) columns
    else columns) []

/-- The dependency-tracing step of `mark_used_columns`: the pairs pushed
after marking `(table_name, column_name)`. -/
def markSuccessors (ctx : AnalysisContext) (table_name column_name : String) :
    List (String × String) :=
  match alookup ctx.cte_columns table_name with
  | none => []
  | some cte_cols => cte_cols.flatMap (fun ci =>
      if extract_column_name ci.column_name == extract_column_name column_name
          || ci.column_name == column_name then
        match ci.table_name with
        | some source_table =>
          let actual := extract_table_name source_table
          if ctx.has_cte actual then
            [(actual, ci.original_column_name.getD ci.column_name)]
          else []
        | none => []
      else [])

/-- The worklist loop of `mark_used_columns`, with explicit fuel; `none`
models non-termination within the given fuel. -/
def markUsedColumnsAux (fuel : Nat) (ctx : AnalysisContext)
    (queue : List (String × String)) : Option AnalysisContext :=
  match queue with
  | [] => some ctx
  | (t, c) :: rest =>
    match fuel with
    | 0 => none
    | fuel2 + 1 =>
      if ctx.graph.is_column_used t c then markUsedColumnsAux fuel2 ctx rest
      else
        let ctx2 := ctx.mark_used t c
        markUsedColumnsAux fuel2 ctx2 (rest ++ markSuccessors ctx2 t c)

/-- Total number of collected CTE columns (bounds the pushes of one
worklist step). -/
def totalColsCount (ctes : List (String × List ColumnInfo)) : Nat :=
  (ctes.map (fun p => p.2.length)).sum

/-- All pairs the worklist can ever push, over a fixed column index. -/
def derivedPairs (ctes : List (String × List ColumnInfo)) :
    List (String × String) :=
  ctes.flatMap (fun p => p.2.filterMap (fun ci =>
    ci.table_name.bind (fun tn =>
      let actual := extract_table_name tn
      if containsKey ctes actual then
        some (actual, ci.original_column_name.getD ci.column_name)
      else none)))

/-- Finite universe of worklist pairs: the initial queue plus everything
derivable from the column index. -/
def pairUniverse (ctes : List (String × List ColumnInfo))
    (q0 : List (String × String)) : Finset (String × String) :=
  (q0 ++ derivedPairs ctes).toFinset

/-- Number of pairs in a finite universe that name a graph node but are
not yet marked used — the part of the termination measure that marking
shrinks. -/
def uCountV (V : Finset (String × String)) (g : DependencyGraph) : Nat :=
  (V.filter
    (fun p => containsKey g.nodes p.1 = true ∧ g.is_column_used p.1 p.2 = false)).card

/-- `uCountV` over the pair universe of an initial queue. -/
def unmarkedCount (ctes : List (String × List ColumnInfo))
    (q0 : List (String × String)) (g : DependencyGraph) : Nat :=
  uCountV (pairUniverse ctes q0) g

/-- Fuel sufficient for the worklist loop on a context whose column index
is in sync with its graph. -/
def markFuel (ctx : AnalysisContext) (q0 : List (String × String)) : Nat :=
  unmarkedCount ctx.cte_columns q0 ctx.graph *
    (totalColsCount ctx.cte_columns + 1) + q0.length + 1

/-- The initial worklist of `mark_used_columns`. -/
def initQueue (final_columns : List ColumnInfo) : List (String × String) :=
  final_columns.filterMap (fun col =>
    col.table_name.map (fun t => (t, col.column_name)))

/-- `mark_used_columns`: run the worklist with (provably sufficient) fuel. -/
def mark_used_columns (ctx : AnalysisContext)
    (final_columns : List ColumnInfo) : AnalysisContext :=
  let q0 := initQueue final_columns
  (markUsedColumnsAux (markFuel ctx q0) ctx q0).getD ctx

/-- `SelectVisitor::visit`. -/
def selectVisit (v : Visit) (ctx : AnalysisContext) : AnalysisContext :=
  if v.node.kind != "select" then ctx
  else
    let is_final := !(v.ancestors.any (fun p => p.1.kind == "cte"))
    match findNamedWithNext (fun c => c.kind == "select_list") v.node with
    | none => ctx
    | some (select_list, next) =>
      if is_final then
        mark_used_columns ctx
          (extract_final_select_columns select_list next ctx.sql ctx)
      else
        extract_and_mark_expression_columns select_list next v ctx

/-! ### SELECT-star marker (`visitors/select_star_visitor.rs`) -/

/-- `mark_source_columns_as_used`: mark every known column of every table
in the FROM clause of the star's SELECT. -/
def mark_source_columns_as_used (v : Visit) (ctx : AnalysisContext) :
    AnalysisContext :=
  let tb := extract_table v.nextNamedSibling ctx.sql
  tb.1.foldl (fun c2 table =>
    let col_names :=
      ((c2.get_cte_columns table).map (fun cols =>
        cols.map (fun c => c.column_name))).getD []
    col_names.foldl (fun c3 col_name => c3.mark_used table col_name) c2) ctx

/-- `SelectStarVisitor::visit`: a `select_list` containing a star and not
enclosed in any CTE marks all source columns used. -/
def selectStarVisit (v : Visit) (ctx : AnalysisContext) : AnalysisContext :=
  if v.node.kind != "select_list" then ctx
  else if !(v.node.children.any (fun c => c.kind == "select_all")) then ctx
  else if v.ancestors.any (fun p => p.1.kind == "cte") then ctx
  else mark_source_columns_as_used v ctx

/-! ### WHERE / JOIN / GROUP BY / UNNEST marker (`visitors/where_visitor.rs`) -/

/-- `extract_tables_from_parent`: tables of the first enclosing SELECT
that has a FROM clause. -/
def extract_tables_from_parent (v : Visit) (sql : String) :
    List String × List (String × String) :=
  match v.ancestors.findSome? (fun p =>
    if p.1.kind == "select" then
      (p.1.namedChildren.find? (fun c => c.kind == "from_clause")).map
        (fun fc => extract_table (some fc) sql)
    else none) with
  | some tb => tb
  | none => ([], [])

/-- The column resolution shared by the WHERE and UNNEST scans: a
qualified reference resolves its prefix through the alias map without a
membership check; an unqualified one goes through `find_original_table`. -/
def resolveConditionColumn (column_text : String) (tables : List String)
    (alias_map : List (String × String))
    (cte_columns : List (String × List ColumnInfo)) : String :=
  if containsDot column_text then
    let pfx := (splitDot column_text).headD ""
    (alookup alias_map pfx).getD pfx
  else find_original_table column_text tables alias_map cte_columns

/-- `extract_columns_from_condition`: every `field` / `identifier` in the
condition subtree that is not a function name and resolves to a table. -/
def extract_columns_from_condition (node : TSNode) (sql : String)
    (tables : List String) (alias_map : List (String × String))
    (cte_columns : List (String × List ColumnInfo)) : List ColumnInfo :=
  (subVisits none node).foldl (fun columns sv =>
    let child := sv.1
    if child.kind == "field" || child.kind == "identifier" then
      if is_function_name sv.2 then columns
      else
        let column_text := child.text
        let table := resolveConditionColumn column_text tables alias_map cte_columns
        if table ≠ "" then
          columns ++ [ColumnInfo.mkNew (some table) column_text none
            child.pos.row child.pos.col]
        else columns
    else columns) []

/-- Mark a list of resolved column references used (shared tail of
`process_condition_node` and `process_unnest_in_from`). -/
def markColRefs (col_refs : List ColumnInfo) (ctx : AnalysisContext) :
    AnalysisContext :=
  col_refs.foldl (fun c2 col =>
    match col.table_name with
    | some table_name => c2.mark_used table_name (extract_column_name col.column_name)
    | none => c2) ctx

/-- `process_condition_node`. -/
def process_condition_node (v : Visit) (ctx : AnalysisContext) :
    AnalysisContext :=
  let tb := extract_tables_from_parent v ctx.sql
  markColRefs
    (extract_columns_from_condition v.node ctx.sql tb.1 tb.2 ctx.cte_columns) ctx

/-- `process_unnest_in_from`: mark the column arguments of every UNNEST
in the FROM clause. -/
def process_unnest_in_from (from_node : TSNode) (ctx : AnalysisContext) :
    AnalysisContext :=
  let tb := extract_table (some from_node) ctx.sql
  let col_refs := (TSNode.preorder from_node).foldl (fun acc child =>
    if child.kind == "unnest_operator" || child.kind == "unnest_clause" then
      (TSNode.preorder child).foldl (fun acc2 uc =>
        if uc.kind == "identifier" || uc.kind == "field" then
          let column_text := uc.text
          let table := resolveConditionColumn column_text tb.1 tb.2 ctx.cte_columns
          if table ≠ "" then
            acc2 ++ [ColumnInfo.mkNew (some table) column_text none
              uc.pos.row uc.pos.col]
          else acc2
        else acc2) acc
    else acc) []
  markColRefs col_refs ctx

/-- `WhereVisitor::visit`. -/
def whereVisit (v : Visit) (ctx : AnalysisContext) : AnalysisContext :=
  if v.node.kind == "join_condition" || v.node.kind == "where_clause"
      || v.node.kind == "group_by_clause" then
    process_condition_node v ctx
  else if v.node.kind == "from_clause" then
    process_unnest_in_from v.node ctx
  else ctx

/-! ### QUALIFY marker (`visitors/qualify_visitor.rs`) -/

/-- `QualifyVisitor::visit`: resolve against the enclosing SELECT's FROM
clause and mark every reference under the QUALIFY clause. -/
def qualifyVisit (v : Visit) (ctx : AnalysisContext) : AnalysisContext :=
  if v.node.kind != "qualify_clause" then ctx
  else
    match v.ancestors.find? (fun p => p.1.kind == "select") with
    | none => ctx
    | some sel =>
      let fromNode := sel.1.namedChildren.find? (fun c => c.kind == "from_clause")
      let tb := extract_table fromNode ctx.sql
      extractFieldRefs tb.1 tb.2 none v.node ctx

/-! ### PIVOT marker (`visitors/pivot_visitor.rs`) -/

/-- `find_tables_for_pivot`: tables of the enclosing FROM clause, or of
the first enclosing SELECT that has one. -/
def find_tables_for_pivot (v : Visit) (sql : String) :
    List String × List (String × String) :=
  match v.ancestors.findSome? (fun p =>
    if p.1.kind == "from_clause" then some (extract_table (some p.1) sql)
    else if p.1.kind == "select" then
      (p.1.namedChildren.find? (fun c => c.kind == "from_clause")).map
        (fun fc => extract_table (some fc) sql)
    else none) with
  | some tb => tb
  | none => ([], [])

mutual

/-- The PIVOT visitor's local `extract_and_mark_fields`: like
`extractFieldRefs` but also treats `input_column` nodes as references. -/
def pivotExtractAndMark (tables : List String)
    (alias_map : List (String × String)) (parentInfo : Option (TSNode × Nat))
    (node : TSNode) (ctx : AnalysisContext) : AnalysisContext :=
  if node.kind == "field" || node.kind == "identifier"
      || node.kind == "input_column" then
    if isFnNameByNameField parentInfo then ctx
    else
      let field_text := node.text
      let col_name := extract_column_name field_text
      let table := find_original_table field_text tables alias_map ctx.cte_columns
      let ctx2 := if table ≠ "" then ctx.mark_used table col_name else ctx
      pivotExtractAndMarkChildren tables alias_map node 0 node.children ctx2
  else
    pivotExtractAndMarkChildren tables alias_map node 0 node.children ctx
termination_by sizeOf node
decreasing_by
  all_goals cases node with
  | mk k f nm q t cs => simp only [TSNode.children, TSNode.mk.sizeOf_spec]; omega

/-- Children recursion of `pivotExtractAndMark`. -/
def pivotExtractAndMarkChildren (tables : List String)
    (alias_map : List (String × String)) (p : TSNode) (i : Nat)
    (rest : List TSNode) (ctx : AnalysisContext) : AnalysisContext :=
  match rest with
  | [] => ctx
  | c :: cs =>
    pivotExtractAndMarkChildren tables alias_map p (i + 1) cs
      (pivotExtractAndMark tables alias_map (some (p, i)) c ctx)
termination_by sizeOf rest
decreasing_by
  · simp only [List.cons.sizeOf_spec]; omega
  · simp only [List.cons.sizeOf_spec]; omega

end

/-- `PivotVisitor::visit`. -/
def pivotVisit (v : Visit) (ctx : AnalysisContext) : AnalysisContext :=
  if v.node.kind != "pivot_operator" then ctx
  else
    let tb := find_tables_for_pivot v ctx.sql
    pivotExtractAndMark tb.1 tb.2 none v.node ctx

/-! ### Rule entry point (`mod.rs` and `diagnostic.rs`) -/

/-- `Diagnostic`: 1-based row and column plus a message. -/
structure Diagnostic where
  row : Nat
  col : Nat
  message : String
deriving DecidableEq, Repr

/-- The diagnostic built for one unused column in `check`. -/
def toDiagnostic (col : ColumnInfo) : Diagnostic :=
  ⟨col.row, col.col, "Unused column: " ++ col.column_name⟩

/-- One traversal step of `check`: all six visitors in their fixed order
(`cte`, `select_star`, `select`, `where`, `qualify`, `pivot`). -/
def applyVisitors (v : Visit) (ctx : AnalysisContext) : Option AnalysisContext :=
  (cteVisit v ctx).map (fun c1 =>
    pivotVisit v (qualifyVisit v (whereVisit v (selectVisit v
      (selectStarVisit v c1)))))

/-- The single-pass traversal of `check`, producing the final context
(`none` models a panic inside the traversal). -/
def runContext (tree : TSNode) (sql : String) : Option AnalysisContext :=
  (visitsOf [] tree).foldlM (fun ctx v => applyVisitors v ctx)
    (AnalysisContext.new sql)

/-- `check`: run the traversal, then convert the unused columns to
diagnostics; the outer `Option` models a panic, the inner one is the
rule's `Option<Vec<Diagnostic>>` result. -/
def check (tree : TSNode) (sql : String) : Option (Option (List Diagnostic)) :=
  (runContext tree sql).map (fun ctx =>
    let unused := ctx.collect_unused
    if unused.isEmpty then none
    else some (unused.map toDiagnostic))

/-- A sequence of separate `check` invocations, each constructing its
fresh `AnalysisContext` (visible in the definition of `check`). -/
def runChecks (inputs : List (TSNode × String)) :
    List (Option (Option (List Diagnostic))) :=
  inputs.map (fun p => check p.1 p.2)

/-! ### Spec-side definitions used to compare against the code -/

/-- `find_original_table` as the spec sentence states it: a qualified
reference is settled entirely by step 1 (empty string when its resolved
prefix is not in scope); only unqualified references reach the scan. -/
def findOriginalTableClaim (column : String) (tables : List String)
    (alias_map : List (String × String))
    (cte_columns : List (String × List ColumnInfo)) : String :=
  if containsDot column then
    let pfx := (splitDot column).headD ""
    let actual := (alookup alias_map pfx).getD pfx
    if tables.contains actual || containsKey cte_columns actual then actual
    else ""
  else
    match tables.find? (fun t =>
      match alookup cte_columns t with
      | some cols => cols.any (fun ci =>
          extract_column_name ci.column_name == extract_column_name column)
      | none => true) with
    | some t => t
    | none => ""

/-- `find_original_table` as amended: a qualified reference whose resolved
prefix names neither an in-scope table nor a known CTE falls through to
the same scan as an unqualified reference (first known CTE with an exact
base-name match, or first table with no known schema), and only when that
scan also fails is the empty string returned. -/
def findOriginalTableAmended (column : String) (tables : List String)
    (alias_map : List (String × String))
    (cte_columns : List (String × List ColumnInfo)) : String :=
  let step1 : Option String :=
    if containsDot column then
      let pfx := (splitDot column).headD ""
      let actual := (alookup alias_map pfx).getD pfx
      if tables.contains actual || containsKey cte_columns actual then
        some actual
      else none
    else none
  match step1 with
  | some t => t
  | none =>
    match tables.find? (fun t =>
      match alookup cte_columns t with
      | some cols => cols.any (fun ci =>
          extract_column_name ci.column_name == extract_column_name column)
      | none => true) with
    | some t => t
    | none => ""

/-- Every `cte` node of the tree carries an `alias_name` field (the shape
the BigQuery grammar guarantees for successfully parsed input; exactly
what `get_cte_name` unwraps). -/
def ctesHaveAlias (n : TSNode) : Bool :=
  (n.kind != "cte" || (n.childByFieldName "alias_name").isSome) &&
    n.children.attach.all (fun c => ctesHaveAlias c.1)
termination_by sizeOf n
decreasing_by exact TSNode.sizeOf_lt_of_mem_children c.2

/-- The in-sync shape of an `AnalysisContext`: every CTE of the column
index also has a graph node (maintained by `AnalysisContext::add_cte`,
which inserts into both). -/
def AnalysisContext.SyncB (ctx : AnalysisContext) : Bool :=
  ctx.cte_columns.all (fun p => containsKey ctx.graph.nodes p.1)

/-- The columns recorded for a name in the graph. -/
def columnsOf (g : DependencyGraph) (name : String) : Option (List ColumnInfo) :=
  (alookup g.nodes name).map (fun n => n.columns)

/-- The used-column names recorded for a name in the graph. -/
def usedOf (g : DependencyGraph) (name : String) : Option (List String) :=
  (alookup g.nodes name).map (fun n => n.used_column_names)

/-- All positions recorded in the graph are 1-based (each `ColumnInfo` was
built by `ColumnInfo::new` or by star expansion, both of which add 1 to a
0-based tree position). -/
def GraphPos (g : DependencyGraph) : Prop :=
  ∀ p ∈ g.nodes, ∀ c ∈ p.2.columns, 1 ≤ c.row ∧ 1 ≤ c.col

/-! ### Shared lemmas about the map and graph primitives -/

theorem alookup_insertRep_self {α : Type} (m : List (String × α)) (k : String) (v : α) :
    alookup (insertRep m k v) k = some v := by
  induction m with
  | nil => simp [alookup, insertRep, List.find?]
  | cons p rest ih =>
    by_cases hp : (p.1 == k) = true
    · have hpk : p.1 = k := by simpa using hp
      simp [alookup, insertRep, List.find?, hp, hpk]
    · have hp2 : (p.1 == k) = false := by cases hb : (p.1 == k) <;> simp_all
      simpa [alookup, insertRep, List.find?, hp2] using ih

theorem alookup_insertRep_ne {α : Type} (m : List (String × α)) (k k2 : String) (v : α)
    (h : k ≠ k2) : alookup (insertRep m k v) k2 = alookup m k2 := by
  have hne : (k == k2) = false := by
    cases hb : (k == k2)
    · rfl
    · exact absurd (by simpa using hb) h
  induction m with
  | nil => simp [alookup, insertRep, List.find?, hne]
  | cons p rest ih =>
    by_cases hp : (p.1 == k) = true
    · have hpk : p.1 = k := by simpa using hp
      simp [alookup, insertRep, List.find?, hp, hpk, hne]
    · have hp2 : (p.1 == k) = false := by cases hb : (p.1 == k) <;> simp_all
      by_cases hq : (p.1 == k2) = true
      · simp [alookup, insertRep, List.find?, hp2, hq]
      · have hq2 : (p.1 == k2) = false := by cases hb : (p.1 == k2) <;> simp_all
        simpa [alookup, insertRep, List.find?, hp2, hq2] using ih

theorem insertRep_insertRep_same {α : Type} (m : List (String × α)) (k : String) (v : α) :
    insertRep (insertRep m k v) k v = insertRep m k v := by
  induction m with
  | nil => simp [insertRep]
  | cons p rest ih =>
    by_cases hp : (p.1 == k) = true
    · simp [insertRep, hp]
    · have hp2 : (p.1 == k) = false := by cases hb : (p.1 == k) <;> simp_all
      simp [insertRep, hp2, ih]

theorem setInsert_mem (s : List String) (v w : String) (h : w ∈ s) :
    w ∈ setInsert s v := by
  unfold setInsert
  by_cases hv : v ∈ s
  · simpa [hv] using h
  · simp [hv, List.mem_append]
    exact Or.inl h

theorem setInsert_self_mem (s : List String) (v : String) :
    v ∈ setInsert s v := by
  unfold setInsert
  by_cases hv : v ∈ s
  · simpa [hv] using hv
  · simp [hv]

theorem setInsert_idem (s : List String) (v : String) :
    setInsert (setInsert s v) v = setInsert s v := by
  unfold setInsert
  by_cases hv : v ∈ s
  · simp [hv]
  · simp [hv]

theorem mark_column_used_of_absent (g : DependencyGraph) (t c : String)
    (h : alookup g.nodes t = none) : g.mark_column_used t c = g := by
  unfold DependencyGraph.mark_column_used
  simp [h]

theorem columnsOf_mark (g : DependencyGraph) (t c n2 : String) :
    columnsOf (g.mark_column_used t c) n2 = columnsOf g n2 := by
  unfold DependencyGraph.mark_column_used
  cases h : alookup g.nodes t with
  | none => rfl
  | some node =>
    unfold columnsOf
    by_cases ht : t = n2
    · subst ht
      rw [alookup_insertRep_self, h]
      rfl
    · rw [alookup_insertRep_ne _ _ _ _ ht]

theorem usedOf_mark_mono (g : DependencyGraph) (t c n2 s : String)
    (h : s ∈ (usedOf g n2).getD []) :
    s ∈ (usedOf (g.mark_column_used t c) n2).getD [] := by
  unfold DependencyGraph.mark_column_used
  cases hg : alookup g.nodes t with
  | none => exact h
  | some node =>
    unfold usedOf at *
    by_cases ht : t = n2
    · subst ht
      rw [alookup_insertRep_self]
      rw [hg] at h
      simp only [Option.map] at h ⊢
      simp only [Option.getD] at h ⊢
      exact setInsert_mem _ _ _ h
    · rw [alookup_insertRep_ne _ _ _ _ ht]
      exact h

theorem mark_column_used_idem (g : DependencyGraph) (t c : String) :
    (g.mark_column_used t c).mark_column_used t c = g.mark_column_used t c := by
  cases h : alookup g.nodes t with
  | none =>
    rw [mark_column_used_of_absent g t c h, mark_column_used_of_absent g t c h]
  | some node =>
    unfold DependencyGraph.mark_column_used
    simp only [h]
    rw [alookup_insertRep_self]
    simp only [setInsert_idem]
    rw [insertRep_insertRep_same]

theorem is_column_used_mark_self (g : DependencyGraph) (t c : String)
    (h : alookup g.nodes t ≠ none) :
    (g.mark_column_used t c).is_column_used t c = true := by
  unfold DependencyGraph.mark_column_used DependencyGraph.is_column_used
  cases hg : alookup g.nodes t with
  | none => exact absurd hg h
  | some node =>
    simp only
    rw [alookup_insertRep_self]
    simpa using setInsert_self_mem _ _

theorem is_column_used_mark_mono (g : DependencyGraph) (t c t2 c2 : String)
    (h : g.is_column_used t2 c2 = true) :
    (g.mark_column_used t c).is_column_used t2 c2 = true := by
  unfold DependencyGraph.mark_column_used
  cases hg : alookup g.nodes t with
  | none => simpa using h
  | some node =>
    unfold DependencyGraph.is_column_used at *
    by_cases ht : t = t2
    · subst ht
      rw [alookup_insertRep_self]
      rw [hg] at h
      simp only [decide_eq_true_eq] at *
      exact setInsert_mem _ _ _ h
    · rw [alookup_insertRep_ne _ _ _ _ ht]
      exact h

theorem containsKey_insertRep_of_mem {α : Type} (m : List (String × α))
    (k k2 : String) (v w : α) (h : alookup m k = some w) :
    containsKey (insertRep m k v) k2 = containsKey m k2 := by
  induction m with
  | nil => simp [alookup, List.find?] at h
  | cons p rest ih =>
    by_cases hp : (p.1 == k) = true
    · simp [insertRep, containsKey, hp]
    · have hp2 : (p.1 == k) = false := by cases hb : (p.1 == k) <;> simp_all
      have h2 : alookup rest k = some w := by
        simpa [alookup, List.find?, hp2] using h
      have hstep : insertRep (p :: rest) k v = p :: insertRep rest k v := by
        simp [insertRep, hp2]
      rw [hstep]
      have ih2 := ih h2
      unfold containsKey at ih2 ⊢
      simp only [List.any_cons, ih2]

theorem containsKey_mark (g : DependencyGraph) (t c k : String) :
    containsKey (g.mark_column_used t c).nodes k = containsKey g.nodes k := by
  unfold DependencyGraph.mark_column_used
  cases hg : alookup g.nodes t with
  | none => rfl
  | some node =>
    exact containsKey_insertRep_of_mem g.nodes t k _ node hg

theorem mem_insertRep {α : Type} (m : List (String × α)) (k : String) (v : α)
    (q : String × α) (h : q ∈ insertRep m k v) : q ∈ m ∨ q = (k, v) := by
  induction m with
  | nil => simpa [insertRep] using h
  | cons p rest ih =>
    by_cases hp : (p.1 == k) = true
    · have hpk : p.1 = k := by simpa using hp
      simp only [insertRep, hp, if_true] at h
      rcases List.mem_cons.mp h with rfl | h2
      · exact Or.inr (by simp [hpk])
      · exact Or.inl (List.mem_cons_of_mem _ h2)
    · have hp2 : (p.1 == k) = false := by cases hb : (p.1 == k) <;> simp_all
      simp only [insertRep, hp2] at h
      rcases List.mem_cons.mp h with rfl | h2
      · exact Or.inl (List.mem_cons_self _ _)
      · rcases ih h2 with h3 | h3
        · exact Or.inl (List.mem_cons_of_mem _ h3)
        · exact Or.inr h3

theorem alookup_mem_value {α : Type} (m : List (String × α)) (k : String) (v : α)
    (h : alookup m k = some v) : ∃ q ∈ m, q.1 = k ∧ q.2 = v := by
  unfold alookup at h
  cases hf : m.find? (fun p => p.1 == k) with
  | none => rw [hf] at h; simp at h
  | some q =>
    rw [hf] at h
    simp at h
    have hm := List.mem_of_find?_eq_some hf
    have hq := List.find?_some hf
    exact ⟨q, hm, by simpa using hq, h⟩

theorem alookup_isSome_of_containsKey {α : Type} (m : List (String × α))
    (k : String) (h : containsKey m k = true) : (alookup m k).isSome = true := by
  induction m with
  | nil => simp [containsKey] at h
  | cons p rest ih =>
    by_cases hp : (p.1 == k) = true
    · simp [alookup, List.find?_cons, hp]
    · have hp2 : (p.1 == k) = false := by cases hb : (p.1 == k) <;> simp_all
      have h2 : containsKey rest k = true := by
        simpa [containsKey, hp2] using h
      simpa [alookup, List.find?_cons, hp2] using ih h2

theorem alookup_none_of_not_containsKey {α : Type} (m : List (String × α))
    (k : String) (h : containsKey m k = false) : alookup m k = none := by
  cases ha : alookup m k with
  | none => rfl
  | some v =>
    obtain ⟨q, hq, hk, hv⟩ := alookup_mem_value m k v ha
    have : containsKey m k = true := by
      unfold containsKey
      rw [List.any_eq_true]
      exact ⟨q, hq, by simp [hk]⟩
    rw [this] at h
    cases h

/-- A generic fold-preservation principle for context invariants. -/
theorem foldl_preserve {α σ : Type} (P : σ → Prop) (step : σ → α → σ)
    (l : List α) (h : ∀ s x, P s → P (step s x)) :
    ∀ init, P init → P (l.foldl step init) := by
  induction l with
  | nil => intro init hi; simpa using hi
  | cons x xs ih =>
    intro init hi
    simp only [List.foldl_cons]
    exact ih _ (h init x hi)

/-- A generic fold principle for element-wise properties of accumulated
lists. -/
theorem foldl_mem_preserve {α β : Type} (P : β → Prop) (step : List β → α → List β)
    (l : List α) (h : ∀ acc x b, (∀ b2 ∈ acc, P b2) → b ∈ step acc x → P b) :
    ∀ acc, (∀ b ∈ acc, P b) → ∀ b ∈ l.foldl step acc, P b := by
  induction l with
  | nil => intro acc ha b hb; exact ha b hb
  | cons x xs ih =>
    intro acc ha b hb
    simp only [List.foldl_cons] at hb
    exact ih (step acc x) (fun b2 hb2 => h acc x b2 ha hb2) b hb

theorem graphPos_new : GraphPos DependencyGraph.new := by
  intro p hp
  simp [DependencyGraph.new] at hp

theorem graphPos_mark (g : DependencyGraph) (t c : String)
    (h : GraphPos g) : GraphPos (g.mark_column_used t c) := by
  unfold DependencyGraph.mark_column_used
  cases hg : alookup g.nodes t with
  | none => exact h
  | some node =>
    intro p hp
    rcases mem_insertRep _ _ _ _ hp with h2 | h2
    · exact h p h2
    · subst h2
      obtain ⟨q, hq, hk, hv⟩ := alookup_mem_value _ _ _ hg
      intro col hcol
      exact h q hq col (by rw [hv]; exact hcol)

theorem graphPos_add_cte (g : DependencyGraph) (name : String)
    (cols : List ColumnInfo) (h : GraphPos g)
    (hc : ∀ c ∈ cols, 1 ≤ c.row ∧ 1 ≤ c.col) :
    GraphPos (g.add_cte name cols) := by
  unfold DependencyGraph.add_cte
  intro p hp
  rcases mem_insertRep _ _ _ _ hp with h2 | h2
  · exact h p h2
  · subst h2
    exact hc

theorem TSNode.one_le_sizeOf (n : TSNode) : 1 ≤ sizeOf n := by
  cases n with
  | mk k f nm q t cs => simp only [TSNode.mk.sizeOf_spec]; omega

theorem one_le_sizeOf_nodeList (l : List TSNode) : 1 ≤ sizeOf l := by
  cases l with
  | nil => simp
  | cons c cs => simp only [List.cons.sizeOf_spec]; omega

theorem expand_asterisk_eq_flatMap (position : Point) (cte_names : List String)
    (ctes : List (String × List ColumnInfo)) :
    expand_asterisk position cte_names ctes =
      cte_names.flatMap (fun t =>
        match alookup ctes t with
        | some cols => cols.map (fun col =>
            { col with table_name := some t,
                       row := position.row + 1, col := position.col + 1 })
        | none => []) := by
  unfold expand_asterisk
  have key : ∀ (names : List String) (acc : List ColumnInfo),
      names.foldl (fun expanded cte_name =>
        match alookup ctes cte_name with
        | some cols => expanded ++ cols.map (fun col =>
            { col with table_name := some cte_name,
                       row := position.row + 1, col := position.col + 1 })
        | none => expanded) acc
      = acc ++ names.flatMap (fun t =>
          match alookup ctes t with
          | some cols => cols.map (fun col =>
              { col with table_name := some t,
                         row := position.row + 1, col := position.col + 1 })
          | none => []) := by
    intro names
    induction names with
    | nil => intro acc; simp
    | cons n ns ih =>
      intro acc
      simp only [List.foldl_cons, List.flatMap_cons]
      cases h : alookup ctes n with
      | some cols =>
        simp only [h]
        rw [ih]
        simp [List.append_assoc]
      | none =>
        simp only [h]
        rw [ih]
        simp
  simpa using key cte_names []

theorem expand_asterisk_pos (position : Point) (cte_names : List String)
    (ctes : List (String × List ColumnInfo)) :
    ∀ c ∈ expand_asterisk position cte_names ctes, 1 ≤ c.row ∧ 1 ≤ c.col := by
  intro c hc
  rw [expand_asterisk_eq_flatMap, List.mem_flatMap] at hc
  obtain ⟨t, ht, hc2⟩ := hc
  cases h : alookup ctes t with
  | none => rw [h] at hc2; simp at hc2
  | some cols =>
    rw [h] at hc2
    simp only [List.mem_map] at hc2
    obtain ⟨col, hcol, rfl⟩ := hc2
    constructor <;> simp

theorem extract_column_info_pos (se : TSNode) (sql : String)
    (tables : List String) (am : List (String × String))
    (ctes : List (String × List ColumnInfo)) :
    1 ≤ (extract_column_info_from_select_expression se sql tables am ctes).row ∧
    1 ≤ (extract_column_info_from_select_expression se sql tables am ctes).col := by
  unfold extract_column_info_from_select_expression ColumnInfo.mkNew
  constructor <;> simp

theorem extract_columns_pos : ∀ (k : Nat),
    (∀ (node : TSNode), sizeOf node ≤ k → ∀ next sql ctes,
      ∀ c ∈ extract_columns node next sql ctes, 1 ≤ c.row ∧ 1 ≤ c.col) ∧
    (∀ (l : List TSNode), sizeOf l ≤ k → ∀ sql ctes,
      ∀ c ∈ extractColumnsOverNamed sql ctes l, 1 ≤ c.row ∧ 1 ≤ c.col) := by
  intro k
  induction k with
  | zero =>
    constructor
    · intro node hn
      exact absurd hn (by have := TSNode.one_le_sizeOf node; omega)
    · intro l hl
      exact absurd hl (by have := one_le_sizeOf_nodeList l; omega)
  | succ k ih =>
    constructor
    · intro node hn next sql ctes c hc
      simp only [extract_columns] at hc
      by_cases hk : (node.kind == "select_list") = true
      · rw [if_pos hk] at hc
        refine foldl_mem_preserve (fun c => 1 ≤ c.row ∧ 1 ≤ c.col) _
          node.children ?_ [] (by simp) c hc
        intro acc child b hacc hb
        by_cases h1 : (child.kind == "select_expression") = true
        · rw [if_pos h1] at hb
          rcases List.mem_append.mp hb with h2 | h2
          · exact hacc b h2
          · rw [List.mem_singleton] at h2
            subst h2
            exact extract_column_info_pos child sql _ _ ctes
        · rw [if_neg h1] at hb
          by_cases h2 : (child.kind == "select_all") = true
          · rw [if_pos h2] at hb
            rcases List.mem_append.mp hb with h3 | h3
            · exact hacc b h3
            · exact expand_asterisk_pos child.pos _ ctes b h3
          · rw [if_neg h2] at hb
            exact hacc b hb
      · rw [if_neg hk] at hc
        have hsz : sizeOf node.namedChildren ≤ k := by
          cases node with
          | mk kk f nm q t cs =>
            have h1 := sizeOf_filter_le (fun c => c.named) cs
            simp only [TSNode.namedChildren, TSNode.children] at *
            simp only [TSNode.mk.sizeOf_spec] at hn
            omega
        exact ih.2 node.namedChildren hsz sql ctes c hc
    · intro l hl sql ctes c hc
      cases l with
      | nil => simp [extractColumnsOverNamed] at hc
      | cons x xs =>
        simp only [extractColumnsOverNamed] at hc
        have hx : sizeOf x ≤ k := by
          have := one_le_sizeOf_nodeList xs
          simp only [List.cons.sizeOf_spec] at hl
          omega
        have hxs : sizeOf xs ≤ k := by
          have := TSNode.one_le_sizeOf x
          simp only [List.cons.sizeOf_spec] at hl
          omega
        rcases List.mem_append.mp hc with h2 | h2
        · exact ih.1 x hx _ sql ctes c h2
        · exact ih.2 xs hxs sql ctes c h2

theorem mark_used_graphPos (ctx : AnalysisContext) (t c : String)
    (h : GraphPos ctx.graph) : GraphPos (ctx.mark_used t c).graph :=
  graphPos_mark ctx.graph t c h

theorem markColRefs_graphPos (refs : List ColumnInfo) (ctx : AnalysisContext)
    (h : GraphPos ctx.graph) : GraphPos (markColRefs refs ctx).graph := by
  unfold markColRefs
  refine foldl_preserve (fun s => GraphPos s.graph) _ refs ?_ ctx h
  intro s col hs
  cases col.table_name with
  | none => simpa using hs
  | some tn => simpa using mark_used_graphPos s tn _ hs

theorem mark_source_columns_graphPos (v : Visit) (ctx : AnalysisContext)
    (h : GraphPos ctx.graph) :
    GraphPos (mark_source_columns_as_used v ctx).graph := by
  unfold mark_source_columns_as_used
  refine foldl_preserve (fun s => GraphPos s.graph) _ _ ?_ ctx h
  intro s table hs
  refine foldl_preserve (fun s => GraphPos s.graph) _ _ ?_ s hs
  intro s2 col_name hs2
  exact mark_used_graphPos s2 table col_name hs2

theorem selectStarVisit_graphPos (v : Visit) (ctx : AnalysisContext)
    (h : GraphPos ctx.graph) : GraphPos (selectStarVisit v ctx).graph := by
  unfold selectStarVisit
  split
  · exact h
  · split
    · exact h
    · split
      · exact h
      · exact mark_source_columns_graphPos v ctx h

theorem extractFieldRefs_graphPos : ∀ (k : Nat),
    (∀ (node : TSNode), sizeOf node ≤ k →
      ∀ tables am pinfo ctx, GraphPos ctx.graph →
        GraphPos (extractFieldRefs tables am pinfo node ctx).graph) ∧
    (∀ (rest : List TSNode), sizeOf rest ≤ k →
      ∀ tables am p i ctx, GraphPos ctx.graph →
        GraphPos (extractFieldRefsChildren tables am p i rest ctx).graph) := by
  intro k
  induction k with
  | zero =>
    constructor
    · intro node hn
      exact absurd hn (by have := TSNode.one_le_sizeOf node; omega)
    · intro l hl
      exact absurd hl (by have := one_le_sizeOf_nodeList l; omega)
  | succ k ih =>
    have hchild : ∀ (node : TSNode), sizeOf node ≤ k + 1 → sizeOf node.children ≤ k := by
      intro node hn
      cases node with
      | mk kk f nm q t cs =>
        simp only [TSNode.children]
        simp only [TSNode.mk.sizeOf_spec] at hn
        omega
    constructor
    · intro node hn tables am pinfo ctx hctx
      simp only [extractFieldRefs]
      split
      · split
        · exact hctx
        · refine ih.2 node.children (hchild node hn) tables am node 0 _ ?_
          split
          · exact mark_used_graphPos ctx _ _ hctx
          · exact hctx
      · exact ih.2 node.children (hchild node hn) tables am node 0 ctx hctx
    · intro rest hl tables am p i ctx hctx
      cases rest with
      | nil => simpa [extractFieldRefsChildren] using hctx
      | cons x xs =>
        simp only [extractFieldRefsChildren]
        have hx : sizeOf x ≤ k := by
          have := one_le_sizeOf_nodeList xs
          simp only [List.cons.sizeOf_spec] at hl
          omega
        have hxs : sizeOf xs ≤ k := by
          have := TSNode.one_le_sizeOf x
          simp only [List.cons.sizeOf_spec] at hl
          omega
        exact ih.2 xs hxs tables am p (i + 1) _
          (ih.1 x hx tables am (some (p, i)) ctx hctx)

theorem pivotExtractAndMark_graphPos : ∀ (k : Nat),
    (∀ (node : TSNode), sizeOf node ≤ k →
      ∀ tables am pinfo ctx, GraphPos ctx.graph →
        GraphPos (pivotExtractAndMark tables am pinfo node ctx).graph) ∧
    (∀ (rest : List TSNode), sizeOf rest ≤ k →
      ∀ tables am p i ctx, GraphPos ctx.graph →
        GraphPos (pivotExtractAndMarkChildren tables am p i rest ctx).graph) := by
  intro k
  induction k with
  | zero =>
    constructor
    · intro node hn
      exact absurd hn (by have := TSNode.one_le_sizeOf node; omega)
    · intro l hl
      exact absurd hl (by have := one_le_sizeOf_nodeList l; omega)
  | succ k ih =>
    have hchild : ∀ (node : TSNode), sizeOf node ≤ k + 1 → sizeOf node.children ≤ k := by
      intro node hn
      cases node with
      | mk kk f nm q t cs =>
        simp only [TSNode.children]
        simp only [TSNode.mk.sizeOf_spec] at hn
        omega
    constructor
    · intro node hn tables am pinfo ctx hctx
      simp only [pivotExtractAndMark]
      split
      · split
        · exact hctx
        · refine ih.2 node.children (hchild node hn) tables am node 0 _ ?_
          split
          · exact mark_used_graphPos ctx _ _ hctx
          · exact hctx
      · exact ih.2 node.children (hchild node hn) tables am node 0 ctx hctx
    · intro rest hl tables am p i ctx hctx
      cases rest with
      | nil => simpa [pivotExtractAndMarkChildren] using hctx
      | cons x xs =>
        simp only [pivotExtractAndMarkChildren]
        have hx : sizeOf x ≤ k := by
          have := one_le_sizeOf_nodeList xs
          simp only [List.cons.sizeOf_spec] at hl
          omega
        have hxs : sizeOf xs ≤ k := by
          have := TSNode.one_le_sizeOf x
          simp only [List.cons.sizeOf_spec] at hl
          omega
        exact ih.2 xs hxs tables am p (i + 1) _
          (ih.1 x hx tables am (some (p, i)) ctx hctx)

theorem markAux_graphPos : ∀ (fuel : Nat) (ctx : AnalysisContext)
    (q : List (String × String)) (ctx2 : AnalysisContext),
    GraphPos ctx.graph → markUsedColumnsAux fuel ctx q = some ctx2 →
    GraphPos ctx2.graph := by
  intro fuel
  induction fuel with
  | zero =>
    intro ctx q ctx2 h hq
    cases q with
    | nil =>
      simp only [markUsedColumnsAux] at hq
      cases hq
      exact h
    | cons p rest =>
      obtain ⟨t, c⟩ := p
      simp [markUsedColumnsAux] at hq
  | succ fuel ih =>
    intro ctx q ctx2 h hq
    cases q with
    | nil =>
      simp only [markUsedColumnsAux] at hq
      cases hq
      exact h
    | cons p rest =>
      obtain ⟨t, c⟩ := p
      simp only [markUsedColumnsAux] at hq
      split at hq
      · exact ih ctx rest ctx2 h hq
      · exact ih _ _ ctx2 (mark_used_graphPos ctx t c h) hq

theorem mark_used_columns_graphPos (ctx : AnalysisContext)
    (cols : List ColumnInfo) (h : GraphPos ctx.graph) :
    GraphPos (mark_used_columns ctx cols).graph := by
  unfold mark_used_columns
  cases hq : markUsedColumnsAux (markFuel ctx (initQueue cols)) ctx (initQueue cols) with
  | none => simpa [hq] using h
  | some ctx2 =>
    have := markAux_graphPos _ ctx _ ctx2 h hq
    simpa [hq] using this

theorem extract_and_mark_graphPos (select_list : TSNode) (next : Option TSNode)
    (v : Visit) (ctx : AnalysisContext) (h : GraphPos ctx.graph) :
    GraphPos (extract_and_mark_expression_columns select_list next v ctx).graph := by
  unfold extract_and_mark_expression_columns
  dsimp only
  split
  · exact h
  · refine foldl_preserve (fun s => GraphPos s.graph) _ _ ?_ ctx h
    intro s child hs
    split
    · exact (extractFieldRefs_graphPos (sizeOf child)).1 child le_rfl _ _ none s hs
    · exact hs

theorem selectVisit_graphPos (v : Visit) (ctx : AnalysisContext)
    (h : GraphPos ctx.graph) : GraphPos (selectVisit v ctx).graph := by
  unfold selectVisit
  dsimp only
  split
  · exact h
  · split
    · exact h
    · split
      · exact mark_used_columns_graphPos ctx _ h
      · exact extract_and_mark_graphPos _ _ v ctx h

theorem process_condition_graphPos (v : Visit) (ctx : AnalysisContext)
    (h : GraphPos ctx.graph) : GraphPos (process_condition_node v ctx).graph := by
  unfold process_condition_node
  exact markColRefs_graphPos _ ctx h

theorem process_unnest_graphPos (n : TSNode) (ctx : AnalysisContext)
    (h : GraphPos ctx.graph) : GraphPos (process_unnest_in_from n ctx).graph := by
  unfold process_unnest_in_from
  exact markColRefs_graphPos _ ctx h

theorem whereVisit_graphPos (v : Visit) (ctx : AnalysisContext)
    (h : GraphPos ctx.graph) : GraphPos (whereVisit v ctx).graph := by
  unfold whereVisit
  split
  · exact process_condition_graphPos v ctx h
  · split
    · exact process_unnest_graphPos v.node ctx h
    · exact h

theorem qualifyVisit_graphPos (v : Visit) (ctx : AnalysisContext)
    (h : GraphPos ctx.graph) : GraphPos (qualifyVisit v ctx).graph := by
  unfold qualifyVisit
  split
  · exact h
  · split
    · exact h
    · exact (extractFieldRefs_graphPos (sizeOf v.node)).1 v.node le_rfl _ _ none ctx h

theorem pivotVisit_graphPos (v : Visit) (ctx : AnalysisContext)
    (h : GraphPos ctx.graph) : GraphPos (pivotVisit v ctx).graph := by
  unfold pivotVisit
  split
  · exact h
  · exact (pivotExtractAndMark_graphPos (sizeOf v.node)).1 v.node le_rfl _ _ none ctx h

theorem cteVisit_graphPos (v : Visit) (ctx ctx2 : AnalysisContext)
    (h : GraphPos ctx.graph) (hv : cteVisit v ctx = some ctx2) :
    GraphPos ctx2.graph := by
  unfold cteVisit at hv
  by_cases h1 : (v.node.kind != "cte") = true
  · simp only [h1, if_true] at hv
    cases hv
    exact h
  · simp only [h1, if_false, Bool.false_eq_true] at hv
    cases h2 : get_cte_name v.node ctx.sql with
    | none => simp [h2] at hv
    | some cte_name =>
      simp only [h2] at hv
      cases h3 : v.node.namedChildren.find?
          (fun c => c.kind == "select" || c.kind == "query_expr") with
      | none =>
        simp only [h3] at hv
        cases hv
        exact h
      | some query =>
        simp only [h3] at hv
        cases h4 : (if (query.kind == "query_expr") = true then
            query.namedChildren.find? (fun c => c.kind == "select")
          else some query) with
        | none =>
          simp only [h4] at hv
          cases hv
          exact h
        | some sel =>
          simp only [h4] at hv
          cases h5 : findNamedWithNext (fun c => c.kind == "select_list") sel with
          | none =>
            simp only [h5] at hv
            cases hv
            exact h
          | some pr =>
            obtain ⟨select_list, nextSib⟩ := pr
            simp only [h5] at hv
            cases hv
            unfold AnalysisContext.add_cte
            refine graphPos_add_cte ctx.graph _ _ h ?_
            intro c hc
            exact (extract_columns_pos (sizeOf select_list)).1 _ le_rfl _ _ _ c hc

theorem cteVisit_isSome (v : Visit) (ctx : AnalysisContext)
    (h : (v.node.kind != "cte" || (v.node.childByFieldName "alias_name").isSome)
      = true) :
    (cteVisit v ctx).isSome = true := by
  unfold cteVisit
  by_cases h1 : (v.node.kind != "cte") = true
  · simp [h1]
  · simp only [h1, if_false, Bool.false_eq_true]
    have h2 : (v.node.childByFieldName "alias_name").isSome = true := by
      rcases Bool.or_eq_true_iff.mp h with h3 | h3
      · exact absurd h3 h1
      · exact h3
    cases h3 : v.node.childByFieldName "alias_name" with
    | none => rw [h3] at h2; cases h2
    | some a =>
      have h4 : get_cte_name v.node ctx.sql = some a.text := by
        unfold get_cte_name
        rw [h3]
        rfl
      rw [h4]
      cases h5 : v.node.namedChildren.find?
          (fun c => c.kind == "select" || c.kind == "query_expr") with
      | none => simp
      | some query =>
        simp only
        cases h6 : (if (query.kind == "query_expr") = true then
            query.namedChildren.find? (fun c => c.kind == "select")
          else some query) with
        | none => simp [h6]
        | some sel =>
          simp only [h6]
          cases h7 : findNamedWithNext (fun c => c.kind == "select_list") sel with
          | none => simp
          | some pr =>
            obtain ⟨select_list, nextSib⟩ := pr
            simp

theorem ctesHaveAlias_children (n : TSNode) (h : ctesHaveAlias n = true) :
    ∀ c ∈ n.children, ctesHaveAlias c = true := by
  intro c hc
  rw [ctesHaveAlias] at h
  have h2 := (Bool.and_eq_true_iff.mp h).2
  rw [List.all_eq_true] at h2
  exact h2 ⟨c, hc⟩ (List.mem_attach _ _)

theorem ctesHaveAlias_head (n : TSNode) (h : ctesHaveAlias n = true) :
    (n.kind != "cte" || (n.childByFieldName "alias_name").isSome) = true := by
  rw [ctesHaveAlias] at h
  exact (Bool.and_eq_true_iff.mp h).1

theorem mem_visitsChildren (anc : List (TSNode × Nat)) (p : TSNode) :
    ∀ (i : Nat) (rest : List TSNode) (v : Visit), v ∈ visitsChildren anc p i rest →
      ∃ c ∈ rest, ∃ anc2, v ∈ visitsOf anc2 c := by
  intro i rest
  induction rest generalizing i with
  | nil =>
    intro v hv
    simp [visitsChildren] at hv
  | cons c cs ih =>
    intro v hv
    simp only [visitsChildren] at hv
    rcases List.mem_append.mp hv with hv1 | hv1
    · exact ⟨c, by simp, _, hv1⟩
    · obtain ⟨c2, hc2, anc2, hv2⟩ := ih (i + 1) v hv1
      exact ⟨c2, by simp [hc2], anc2, hv2⟩

theorem visitsOf_node_good : ∀ (k : Nat) (n : TSNode), sizeOf n ≤ k →
    ctesHaveAlias n = true →
    ∀ (anc : List (TSNode × Nat)) (v : Visit), v ∈ visitsOf anc n →
      (v.node.kind != "cte" || (v.node.childByFieldName "alias_name").isSome)
        = true := by
  intro k
  induction k with
  | zero =>
    intro n hn
    exact absurd hn (by have := TSNode.one_le_sizeOf n; omega)
  | succ k ih =>
    intro n hn hca anc v hv
    simp only [visitsOf] at hv
    rcases List.mem_cons.mp hv with rfl | hv2
    · exact ctesHaveAlias_head n hca
    · obtain ⟨c, hc, anc2, hv3⟩ := mem_visitsChildren anc n 0 n.children v hv2
      have hsz : sizeOf c ≤ k := by
        have := TSNode.sizeOf_lt_of_mem_children hc
        omega
      exact ih c hsz (ctesHaveAlias_children n hca c hc) anc2 v hv3

theorem foldlM_option_isSome {σ : Type} (step : σ → Visit → Option σ)
    (l : List Visit) (h : ∀ v ∈ l, ∀ s, (step s v).isSome = true) :
    ∀ init : σ, (l.foldlM step init).isSome = true := by
  induction l with
  | nil => intro init; simp
  | cons v vs ih =>
    intro init
    rw [List.foldlM_cons]
    cases hs : step init v with
    | none =>
      have := h v (by simp) init
      rw [hs] at this
      cases this
    | some s2 =>
      exact ih (fun v2 hv2 s => h v2 (by simp [hv2]) s) s2

theorem foldlM_option_inv {σ : Type} (P : σ → Prop)
    (step : σ → Visit → Option σ) (l : List Visit)
    (h : ∀ s v s2, P s → step s v = some s2 → P s2) :
    ∀ (init out : σ), P init → l.foldlM step init = some out → P out := by
  induction l with
  | nil =>
    intro init out hi hfold
    simp only [List.foldlM_nil] at hfold
    cases hfold
    exact hi
  | cons v vs ih =>
    intro init out hi hfold
    rw [List.foldlM_cons] at hfold
    cases hs : step init v with
    | none => rw [hs] at hfold; cases hfold
    | some s2 =>
      rw [hs] at hfold
      exact ih s2 out (h init v s2 hi hs) hfold

theorem applyVisitors_isSome (v : Visit) (ctx : AnalysisContext)
    (h : (v.node.kind != "cte" || (v.node.childByFieldName "alias_name").isSome)
      = true) : (applyVisitors v ctx).isSome = true := by
  unfold applyVisitors
  have h2 := cteVisit_isSome v ctx h
  cases hc : cteVisit v ctx with
  | none => rw [hc] at h2; cases h2
  | some c1 => simp [hc]

theorem applyVisitors_graphPos (v : Visit) (ctx ctx2 : AnalysisContext)
    (h : GraphPos ctx.graph) (hv : applyVisitors v ctx = some ctx2) :
    GraphPos ctx2.graph := by
  unfold applyVisitors at hv
  cases hc : cteVisit v ctx with
  | none => rw [hc] at hv; cases hv
  | some c1 =>
    rw [hc] at hv
    simp only [Option.map_some'] at hv
    cases hv
    exact pivotVisit_graphPos _ _ (qualifyVisit_graphPos _ _ (whereVisit_graphPos
      _ _ (selectVisit_graphPos _ _ (selectStarVisit_graphPos _ _
        (cteVisit_graphPos v ctx c1 h hc)))))

theorem runContext_isSome (tree : TSNode) (sql : String)
    (h : ctesHaveAlias tree = true) : (runContext tree sql).isSome = true := by
  unfold runContext
  refine foldlM_option_isSome _ _ ?_ (AnalysisContext.new sql)
  intro v hv s
  exact applyVisitors_isSome v s
    (visitsOf_node_good (sizeOf tree) tree le_rfl h [] v hv)

theorem runContext_graphPos (tree : TSNode) (sql : String)
    (ctx : AnalysisContext) (h : runContext tree sql = some ctx) :
    GraphPos ctx.graph := by
  unfold runContext at h
  refine foldlM_option_inv (fun s => GraphPos s.graph) _ _ ?_ _ _ ?_ h
  · intro s v s2 hs hstep
    exact applyVisitors_graphPos v s s2 hs hstep
  · intro p hp
    simp [AnalysisContext.new, DependencyGraph.new] at hp

theorem collect_pos (g : DependencyGraph) (h : GraphPos g) :
    ∀ c ∈ g.collect_unused_columns, 1 ≤ c.row ∧ 1 ≤ c.col := by
  intro c hc
  unfold DependencyGraph.collect_unused_columns at hc
  rw [(List.perm_insertionSort _ _).mem_iff] at hc
  rw [List.mem_flatMap] at hc
  obtain ⟨p, hp, hc2⟩ := hc
  rw [List.mem_filter] at hc2
  exact h p hp c hc2.1

theorem ctesHaveAlias_leaf (k : String) (f : Option String) (nm : Bool)
    (q : Point) (t : String) (hk : (k != "cte") = true) :
    ctesHaveAlias (TSNode.mk k f nm q t []) = true := by
  unfold ctesHaveAlias
  simp [TSNode.kind, TSNode.children, hk]

/-! ### Termination of the backward-reachability worklist -/

theorem syncB_no_cols_of_absent (ctx : AnalysisContext) (t : String)
    (h : ctx.SyncB = true) (hg : containsKey ctx.graph.nodes t = false) :
    alookup ctx.cte_columns t = none := by
  cases ha : alookup ctx.cte_columns t with
  | none => rfl
  | some cols =>
    obtain ⟨q, hq, hk, hv⟩ := alookup_mem_value _ _ _ ha
    unfold AnalysisContext.SyncB at h
    rw [List.all_eq_true] at h
    have h2 := h q hq
    rw [hk] at h2
    rw [h2] at hg
    cases hg

theorem syncB_mark (ctx : AnalysisContext) (t c : String)
    (h : ctx.SyncB = true) : (ctx.mark_used t c).SyncB = true := by
  unfold AnalysisContext.SyncB AnalysisContext.mark_used at *
  rw [List.all_eq_true] at *
  intro q hq
  simp only [containsKey_mark]
  exact h q hq

theorem flatMap_length_le_of_le_one {α β : Type} (f : α → List β) (l : List α)
    (h : ∀ x ∈ l, (f x).length ≤ 1) : (l.flatMap f).length ≤ l.length := by
  induction l with
  | nil => simp
  | cons x xs ih =>
    simp only [List.flatMap_cons, List.length_append, List.length_cons]
    have h1 := h x (by simp)
    have h2 := ih (fun y hy => h y (by simp [hy]))
    omega

theorem length_le_totalCols (ctes : List (String × List ColumnInfo))
    (t : String) (cols : List ColumnInfo) (h : alookup ctes t = some cols) :
    cols.length ≤ totalColsCount ctes := by
  obtain ⟨q, hq, hk, hv⟩ := alookup_mem_value _ _ _ h
  unfold totalColsCount
  subst hv
  exact List.single_le_sum (by intro x _; omega) _
    (List.mem_map_of_mem (fun p => p.2.length) hq)

theorem markSuccessors_length (ctx : AnalysisContext) (t c : String) :
    (markSuccessors ctx t c).length ≤ totalColsCount ctx.cte_columns := by
  unfold markSuccessors
  cases h : alookup ctx.cte_columns t with
  | none => simp
  | some cols =>
    have hone : ∀ ci ∈ cols,
        ((fun ci =>
          if extract_column_name ci.column_name == extract_column_name c
              || ci.column_name == c then
            match ci.table_name with
            | some source_table =>
              if ctx.has_cte (extract_table_name source_table) then
                [(extract_table_name source_table,
                  ci.original_column_name.getD ci.column_name)]
              else []
            | none => []
          else []) ci).length ≤ 1 := by
      intro ci _
      dsimp only
      split
      · cases hci : ci.table_name with
        | some st => simp only; split <;> simp
        | none => simp
      · simp
    calc (cols.flatMap _).length ≤ cols.length :=
          flatMap_length_le_of_le_one _ cols hone
      _ ≤ totalColsCount ctx.cte_columns := length_le_totalCols _ t cols h

theorem markSuccessors_subset (ctx : AnalysisContext) (t c : String)
    (p : String × String) (hp : p ∈ markSuccessors ctx t c) :
    p ∈ derivedPairs ctx.cte_columns := by
  unfold markSuccessors at hp
  cases h : alookup ctx.cte_columns t with
  | none => rw [h] at hp; simp at hp
  | some cols =>
    rw [h] at hp
    rw [List.mem_flatMap] at hp
    obtain ⟨ci, hci, hp2⟩ := hp
    obtain ⟨q, hq, hk, hv⟩ := alookup_mem_value _ _ _ h
    unfold derivedPairs
    rw [List.mem_flatMap]
    refine ⟨q, hq, ?_⟩
    rw [List.mem_filterMap]
    refine ⟨ci, by rw [hv]; exact hci, ?_⟩
    split at hp2
    · cases hci2 : ci.table_name with
      | none => rw [hci2] at hp2; simp at hp2
      | some st =>
        rw [hci2] at hp2
        simp only at hp2
        split at hp2
        · rename_i hct0
          rw [List.mem_singleton] at hp2
          subst hp2
          have hct : containsKey ctx.cte_columns (extract_table_name st) = true :=
            hct0
          simp [hct]
        · simp at hp2
    · simp at hp2

theorem mem_pairUniverse_left (ctes : List (String × List ColumnInfo))
    (q0 : List (String × String)) (p : String × String) (h : p ∈ q0) :
    p ∈ pairUniverse ctes q0 := by
  unfold pairUniverse
  rw [List.mem_toFinset]
  exact List.mem_append.mpr (Or.inl h)

theorem mem_pairUniverse_right (ctes : List (String × List ColumnInfo))
    (q0 : List (String × String)) (p : String × String)
    (h : p ∈ derivedPairs ctes) : p ∈ pairUniverse ctes q0 := by
  unfold pairUniverse
  rw [List.mem_toFinset]
  exact List.mem_append.mpr (Or.inr h)

theorem uCountV_mark_lt (V : Finset (String × String)) (g : DependencyGraph)
    (t c : String) (hmem : (t, c) ∈ V)
    (hk : containsKey g.nodes t = true) (hu : g.is_column_used t c = false) :
    uCountV V (g.mark_column_used t c) < uCountV V g := by
  unfold uCountV
  have hsub : V.filter (fun p => containsKey (g.mark_column_used t c).nodes p.1 = true
        ∧ (g.mark_column_used t c).is_column_used p.1 p.2 = false) ⊆
      V.filter (fun p => containsKey g.nodes p.1 = true
        ∧ g.is_column_used p.1 p.2 = false) := by
    intro p hp
    rw [Finset.mem_filter] at hp ⊢
    obtain ⟨hpV, hp1, hp2⟩ := hp
    rw [containsKey_mark] at hp1
    refine ⟨hpV, hp1, ?_⟩
    cases hb : g.is_column_used p.1 p.2 with
    | false => rfl
    | true =>
      have := is_column_used_mark_mono g t c p.1 p.2 hb
      rw [this] at hp2
      cases hp2
  have hin : (t, c) ∈ V.filter (fun p => containsKey g.nodes p.1 = true
      ∧ g.is_column_used p.1 p.2 = false) := by
    rw [Finset.mem_filter]
    exact ⟨hmem, hk, hu⟩
  have hout : (t, c) ∉ V.filter (fun p =>
      containsKey (g.mark_column_used t c).nodes p.1 = true
        ∧ (g.mark_column_used t c).is_column_used p.1 p.2 = false) := by
    rw [Finset.mem_filter]
    rintro ⟨-, -, h2⟩
    have h3 : (alookup g.nodes t).isSome = true :=
      alookup_isSome_of_containsKey _ _ hk
    have h4 : alookup g.nodes t ≠ none := by
      cases hb : alookup g.nodes t
      · rw [hb] at h3; cases h3
      · simp
    rw [is_column_used_mark_self g t c h4] at h2
    cases h2
  exact Finset.card_lt_card ((Finset.ssubset_iff_of_subset hsub).mpr
    ⟨(t, c), hin, hout⟩)

theorem markAux_terminates : ∀ (fuel : Nat) (V : Finset (String × String))
    (ctx : AnalysisContext) (q : List (String × String)),
    ctx.SyncB = true →
    (∀ p ∈ q, p ∈ V) →
    (∀ p ∈ derivedPairs ctx.cte_columns, p ∈ V) →
    uCountV V ctx.graph * (totalColsCount ctx.cte_columns + 1) + q.length < fuel →
    (markUsedColumnsAux fuel ctx q).isSome = true := by
  intro fuel
  induction fuel with
  | zero =>
    intro V ctx q _ _ _ hm
    omega
  | succ fuel ih =>
    intro V ctx q hsync hq hd hm
    cases q with
    | nil => simp [markUsedColumnsAux]
    | cons p rest =>
      obtain ⟨t, c⟩ := p
      simp only [markUsedColumnsAux]
      by_cases hused : ctx.graph.is_column_used t c = true
      · rw [if_pos hused]
        refine ih V ctx rest hsync (fun p hp => hq p (by simp [hp])) hd ?_
        simp only [List.length_cons] at hm
        omega
      · rw [if_neg hused]
        have hused2 : ctx.graph.is_column_used t c = false := by
          cases hb : ctx.graph.is_column_used t c
          · rfl
          · exact absurd hb hused
        by_cases hk : containsKey ctx.graph.nodes t = true
        · have hsync2 : (ctx.mark_used t c).SyncB = true := syncB_mark ctx t c hsync
          have hdec : uCountV V (ctx.mark_used t c).graph + 1 ≤ uCountV V ctx.graph :=
            uCountV_mark_lt V ctx.graph t c (hq (t, c) (by simp)) hk hused2
          refine ih V (ctx.mark_used t c)
            (rest ++ markSuccessors (ctx.mark_used t c) t c) hsync2 ?_ ?_ ?_
          · intro p hp
            rcases List.mem_append.mp hp with h1 | h1
            · exact hq p (by simp [h1])
            · exact hd p (markSuccessors_subset (ctx.mark_used t c) t c p h1)
          · intro p hp
            exact hd p hp
          · have hpl : (markSuccessors (ctx.mark_used t c) t c).length ≤
                totalColsCount ctx.cte_columns :=
              markSuccessors_length (ctx.mark_used t c) t c
            have h2 : uCountV V (ctx.mark_used t c).graph *
                  (totalColsCount ctx.cte_columns + 1) +
                  (totalColsCount ctx.cte_columns + 1) ≤
                uCountV V ctx.graph * (totalColsCount ctx.cte_columns + 1) := by
              have h3 : (uCountV V (ctx.mark_used t c).graph + 1) *
                    (totalColsCount ctx.cte_columns + 1) ≤
                  uCountV V ctx.graph * (totalColsCount ctx.cte_columns + 1) :=
                Nat.mul_le_mul_right _ hdec
              calc uCountV V (ctx.mark_used t c).graph *
                    (totalColsCount ctx.cte_columns + 1) +
                    (totalColsCount ctx.cte_columns + 1)
                  = (uCountV V (ctx.mark_used t c).graph + 1) *
                    (totalColsCount ctx.cte_columns + 1) := by ring
                _ ≤ _ := h3
            simp only [show (ctx.mark_used t c).cte_columns = ctx.cte_columns
              from rfl]
            simp only [List.length_append, List.length_cons] at hm ⊢
            omega
        · have hk2 : containsKey ctx.graph.nodes t = false := by
            cases hb : containsKey ctx.graph.nodes t
            · rfl
            · exact absurd hb hk
          have hnone : alookup ctx.cte_columns t = none :=
            syncB_no_cols_of_absent ctx t hsync hk2
          have hmark : ctx.mark_used t c = ctx := by
            unfold AnalysisContext.mark_used
            rw [mark_column_used_of_absent ctx.graph t c
              (alookup_none_of_not_containsKey _ _ hk2)]
          have hsucc : markSuccessors ctx t c = [] := by
            unfold markSuccessors
            rw [hnone]
          rw [hmark, hsucc, List.append_nil]
          refine ih V ctx rest hsync (fun p hp => hq p (by simp [hp])) hd ?_
          simp only [List.length_cons] at hm
          omega

/-- The sort relation of `collect_unused_columns` is exactly the
non-strict order induced by `Ord for ColumnInfo` (`cmp ≠ Greater`). -/
theorem le_iff_cmp_ne_gt (a b : ColumnInfo) :
    ColumnInfo.le a b ↔ ColumnInfo.cmp a b ≠ Ordering.gt := by
  unfold ColumnInfo.le ColumnInfo.cmp
  rcases Nat.lt_trichotomy a.row b.row with h | h | h
  · rw [Nat.compare_eq_lt.mpr h]
    simp only [Ordering.then]
    constructor
    · intro _ hx; cases hx
    · intro _; exact Or.inl h
  · rw [Nat.compare_eq_eq.mpr h]
    simp only [Ordering.then]
    rcases Nat.lt_trichotomy a.col b.col with h2 | h2 | h2
    · rw [Nat.compare_eq_lt.mpr h2]
      constructor
      · intro _ hx; cases hx
      · intro _; exact Or.inr ⟨h, by omega⟩
    · rw [Nat.compare_eq_eq.mpr h2]
      constructor
      · intro _ hx; cases hx
      · intro _; exact Or.inr ⟨h, by omega⟩
    · rw [Nat.compare_eq_gt.mpr h2]
      constructor
      · intro hx; exfalso; omega
      · intro hx; exact absurd rfl hx
  · rw [Nat.compare_eq_gt.mpr h]
    simp only [Ordering.then]
    constructor
    · intro hx; exfalso; omega
    · intro hx; exact absurd rfl hx

/-! ### Claims -/

/-- C8 (counterexample): two `ColumnInfo` values that agree on every field
other than `original_column_name` are not equal — the derived equality
compares `original_column_name` too, so equality does not ignore it. -/
theorem c8_counterexample :
    (⟨none, "c", some "orig", 1, 1⟩ : ColumnInfo) ≠ ⟨none, "c", none, 1, 1⟩ ∧
    (⟨none, "c", some "orig", 1, 1⟩ : ColumnInfo).table_name = (⟨none, "c", none, 1, 1⟩ : ColumnInfo).table_name ∧
    (⟨none, "c", some "orig", 1, 1⟩ : ColumnInfo).column_name = (⟨none, "c", none, 1, 1⟩ : ColumnInfo).column_name ∧
    (⟨none, "c", some "orig", 1, 1⟩ : ColumnInfo).row = (⟨none, "c", none, 1, 1⟩ : ColumnInfo).row ∧
    (⟨none, "c", some "orig", 1, 1⟩ : ColumnInfo).col = (⟨none, "c", none, 1, 1⟩ : ColumnInfo).col := by
  refine ⟨?_, rfl, rfl, rfl, rfl⟩
  decide

/-- C8 (amended): `a` is ordered before `b` exactly when `(a.row, a.col)`
is lexicographically smaller than `(b.row, b.col)` — the comparison reads
no other field, so `cmp` returns `eq` whenever the positions agree — while
equality is full structural equality, comparing every field including
`original_column_name`. -/
theorem c8_columninfo_order_eq (a b : ColumnInfo) :
    (ColumnInfo.ltb a b = true ↔
      (a.row < b.row ∨ (a.row = b.row ∧ a.col < b.col))) ∧
    (ColumnInfo.cmp a b = Ordering.eq ↔ (a.row = b.row ∧ a.col = b.col)) ∧
    (a = b ↔ (a.table_name = b.table_name ∧ a.column_name = b.column_name ∧
      a.original_column_name = b.original_column_name ∧ a.row = b.row ∧
      a.col = b.col)) := by
  refine ⟨?_, ?_, ?_⟩
  · unfold ColumnInfo.ltb ColumnInfo.cmp
    rcases Nat.lt_trichotomy a.row b.row with h | h | h
    · rw [Nat.compare_eq_lt.mpr h]
      simp only [Ordering.then]
      exact ⟨fun _ => Or.inl h, fun _ => rfl⟩
    · rw [Nat.compare_eq_eq.mpr h]
      simp only [Ordering.then]
      rcases Nat.lt_trichotomy a.col b.col with h2 | h2 | h2
      · rw [Nat.compare_eq_lt.mpr h2]
        exact ⟨fun _ => Or.inr ⟨h, h2⟩, fun _ => rfl⟩
      · rw [Nat.compare_eq_eq.mpr h2]
        constructor
        · intro hx; exact absurd hx (by decide)
        · intro hx; exfalso; rcases hx with h3 | ⟨h3, h4⟩ <;> omega
      · rw [Nat.compare_eq_gt.mpr h2]
        constructor
        · intro hx; exact absurd hx (by decide)
        · intro hx; exfalso; rcases hx with h3 | ⟨h3, h4⟩ <;> omega
    · rw [Nat.compare_eq_gt.mpr h]
      simp only [Ordering.then]
      constructor
      · intro hx; exact absurd hx (by decide)
      · intro hx; exfalso; rcases hx with h3 | ⟨h3, h4⟩ <;> omega
  · unfold ColumnInfo.cmp
    rcases Nat.lt_trichotomy a.row b.row with h | h | h
    · rw [Nat.compare_eq_lt.mpr h]
      simp only [Ordering.then]
      constructor
      · intro hx; exact absurd hx (by decide)
      · intro hx; exfalso; omega
    · rw [Nat.compare_eq_eq.mpr h]
      simp only [Ordering.then]
      rcases Nat.lt_trichotomy a.col b.col with h2 | h2 | h2
      · rw [Nat.compare_eq_lt.mpr h2]
        constructor
        · intro hx; exact absurd hx (by decide)
        · intro hx; exfalso; omega
      · rw [Nat.compare_eq_eq.mpr h2]
        exact ⟨fun _ => ⟨h, h2⟩, fun _ => rfl⟩
      · rw [Nat.compare_eq_gt.mpr h2]
        constructor
        · intro hx; exact absurd hx (by decide)
        · intro hx; exfalso; omega
    · rw [Nat.compare_eq_gt.mpr h]
      simp only [Ordering.then]
      constructor
      · intro hx; exact absurd hx (by decide)
      · intro hx; exfalso; omega
  · cases a; cases b; simp [ColumnInfo.mk.injEq]

/-- C8 (witness): the amended theorem at concrete values. -/
theorem c8_columninfo_order_eq_witness :
    ColumnInfo.ltb ⟨none, "a", none, 1, 2⟩ ⟨none, "b", none, 1, 3⟩ = true :=
  ((c8_columninfo_order_eq ⟨none, "a", none, 1, 2⟩ ⟨none, "b", none, 1, 3⟩).1).mpr
    (Or.inr ⟨rfl, by decide⟩)

/-- C9 (counterexample): inserting an already-present CTE name replaces
the node — after a second `add_cte` for name `c`, the recorded columns are
those of the second insertion, not the first, and the first insertion's
column is gone from the node. -/
theorem c9_counterexample :
    columnsOf ((DependencyGraph.new.add_cte "c"
        [⟨some "t", "a", none, 1, 1⟩]).add_cte "c" []) "c" = some [] ∧
    columnsOf (DependencyGraph.new.add_cte "c"
        [⟨some "t", "a", none, 1, 1⟩]) "c" = some [⟨some "t", "a", none, 1, 1⟩] ∧
    (some ([] : List ColumnInfo)) ≠ some [⟨some "t", "a", none, 1, 1⟩] := by
  refine ⟨by decide, by decide, by decide⟩

/-- C9 (amended): `add_cte` always records a fresh node with exactly the
given columns and an empty used-set — so with a duplicated name the last
definition wins, replacing the earlier node — and marking never removes
or changes any node's columns. -/
theorem c9_add_cte_last_wins (g : DependencyGraph) (name : String)
    (cols : List ColumnInfo) :
    alookup (g.add_cte name cols).nodes name = some ⟨cols, []⟩ ∧
    (∀ t c n2, columnsOf (g.mark_column_used t c) n2 = columnsOf g n2) := by
  constructor
  · unfold DependencyGraph.add_cte
    exact alookup_insertRep_self _ _ _
  · intro t c n2
    exact columnsOf_mark g t c n2

/-- C10 (counterexample): `used_column_names` is not monotone under every
operation — re-adding an existing CTE name resets the node's used-set to
empty, dropping the previously recorded mark. -/
theorem c10_counterexample :
    usedOf ((DependencyGraph.new.add_cte "c" []).mark_column_used "c" "x") "c"
      = some ["x"] ∧
    usedOf (((DependencyGraph.new.add_cte "c" []).mark_column_used "c" "x").add_cte
      "c" []) "c" = some [] := by
  refine ⟨by decide, by decide⟩

/-- C10 (amended): under `mark_column_used`, every node's used-set grows
monotonically and never shrinks, marking is idempotent — a second
identical mark leaves the graph in exactly the same state — and no other
field of any node changes; `add_cte` on an existing name, however,
replaces the node and resets its used-set. -/
theorem c10_mark_monotone_idempotent (g : DependencyGraph) (t c : String) :
    (g.mark_column_used t c).mark_column_used t c = g.mark_column_used t c ∧
    (∀ n2 s, s ∈ (usedOf g n2).getD [] →
      s ∈ (usedOf (g.mark_column_used t c) n2).getD []) ∧
    (∀ n2, columnsOf (g.mark_column_used t c) n2 = columnsOf g n2) := by
  refine ⟨mark_column_used_idem g t c, ?_, ?_⟩
  · intro n2 s h
    exact usedOf_mark_mono g t c n2 s h
  · intro n2
    exact columnsOf_mark g t c n2

/-- C1 (counterexample): `check` does not return a diagnostics value on
every parse tree — on a tree whose root is a `cte` node with no
`alias_name` field it panics (the outer `none`), returning neither `None`
nor `Some` diagnostics. -/
theorem c1_counterexample :
    check (TSNode.mk "cte" none true ⟨0, 0⟩ "" []) "" = none := by
  have hv : visitsOf [] (TSNode.mk "cte" none true ⟨0, 0⟩ "" []) =
      [⟨TSNode.mk "cte" none true ⟨0, 0⟩ "" [], []⟩] := by
    simp [visitsOf, visitsChildren, TSNode.children]
  unfold check runContext
  rw [hv]
  decide

/-- C1 (amended): on every tree whose `cte` nodes all expose an
`alias_name` field (the well-formed shape of successfully parsed input;
without it `check` panics — see C7), the traversal completes, `check`
returns `None` when
the set of unused columns is empty and otherwise `Some` of a non-empty
list holding exactly one diagnostic per unused column — with the column's
1-based row and column and the message `"Unused column: {name}"` where
`name` is the column's output name — and `Some` of an empty list is never
returned. -/
theorem c1_check_output_contract (tree : TSNode) (sql : String)
    (h : ctesHaveAlias tree = true) :
    ∃ ctx, runContext tree sql = some ctx ∧
      (ctx.collect_unused = [] → check tree sql = some none) ∧
      (ctx.collect_unused ≠ [] →
        check tree sql = some (some (ctx.collect_unused.map toDiagnostic))) ∧
      (∀ c ∈ ctx.collect_unused,
        toDiagnostic c = ⟨c.row, c.col, "Unused column: " ++ c.column_name⟩ ∧
        1 ≤ c.row ∧ 1 ≤ c.col) ∧
      (∀ ds, check tree sql = some (some ds) → ds ≠ []) := by
  have hs := runContext_isSome tree sql h
  cases hrc : runContext tree sql with
  | none => rw [hrc] at hs; cases hs
  | some ctx =>
    refine ⟨ctx, rfl, ?_, ?_, ?_, ?_⟩
    · intro he
      unfold check
      rw [hrc]
      simp [AnalysisContext.collect_unused] at he
      simp [AnalysisContext.collect_unused, he]
    · intro hne
      have hie : ctx.collect_unused.isEmpty = false := by
        cases hcc : ctx.collect_unused with
        | nil => exact absurd hcc hne
        | cons a l => rfl
      unfold check
      rw [hrc]
      simp only [Option.map_some']
      rw [if_neg (by simp [AnalysisContext.collect_unused] at hie ⊢; simp [hie])]
    · intro c hc
      exact ⟨rfl, collect_pos ctx.graph (runContext_graphPos tree sql ctx hrc) c hc⟩
    · intro ds hds
      unfold check at hds
      rw [hrc] at hds
      simp only [Option.map_some'] at hds
      by_cases he : ctx.collect_unused.isEmpty = true
      · rw [if_pos (by simpa [AnalysisContext.collect_unused] using he)] at hds
        cases hds
      · rw [if_neg (by simpa [AnalysisContext.collect_unused] using he)] at hds
        have hds2 : ctx.collect_unused.map toDiagnostic = ds := by
          have := Option.some.inj hds
          simpa [AnalysisContext.collect_unused] using this
        intro hnil
        rw [hnil] at hds2
        have h0 : ctx.collect_unused = [] := List.map_eq_nil.mp hds2
        rw [h0] at he
        exact he rfl

/-- C1 (witness): the output contract applied to a concrete one-node
tree. -/
theorem c1_check_output_contract_witness :
    (check (TSNode.mk "program" none true ⟨0, 0⟩ "SELECT 1" []) "SELECT 1").isSome
      = true := by
  obtain ⟨ctx, hctx, -, -, -, -⟩ :=
    c1_check_output_contract (TSNode.mk "program" none true ⟨0, 0⟩ "SELECT 1" [])
      "SELECT 1" (ctesHaveAlias_leaf "program" none true ⟨0, 0⟩ "SELECT 1" rfl)
  simp [check, hctx]

/-- C7 (counterexample): the analysis can raise an error — on a tree
containing a `cte` node without an `alias_name` field, `get_cte_name`
unwraps `None` and `check` panics (modelled as the outer `none`),
contradicting `never to a panic or raised error`. -/
theorem c7_counterexample :
    check (TSNode.mk "program" none true ⟨0, 0⟩ "WITH AS (SELECT 1)"
        [TSNode.mk "cte" none true ⟨0, 5⟩ "" []]) "WITH AS (SELECT 1)"
      = none := by
  have hv : visitsOf [] (TSNode.mk "program" none true ⟨0, 0⟩ "WITH AS (SELECT 1)"
      [TSNode.mk "cte" none true ⟨0, 5⟩ "" []]) =
      [⟨TSNode.mk "program" none true ⟨0, 0⟩ "WITH AS (SELECT 1)"
          [TSNode.mk "cte" none true ⟨0, 5⟩ "" []], []⟩,
        ⟨TSNode.mk "cte" none true ⟨0, 5⟩ "" [],
          [(TSNode.mk "program" none true ⟨0, 0⟩ "WITH AS (SELECT 1)"
            [TSNode.mk "cte" none true ⟨0, 5⟩ "" []], 0)]⟩] := by
    simp [visitsOf, visitsChildren, TSNode.children]
  unfold check runContext
  rw [hv]
  decide

/-- C7 (amended): except for a `cte` node lacking an `alias_name` field —
where `get_cte_name` unwraps and panics — the analysis never raises:
whenever every `cte` node carries the field, `check` returns a value (all
other missing structure degrades to skipping), and in particular marking
a column used for a table name absent from the graph leaves the graph
unchanged. -/
theorem c7_no_panic_amended :
    (∀ (g : DependencyGraph) (t c : String), containsKey g.nodes t = false →
      g.mark_column_used t c = g) ∧
    (∀ (tree : TSNode) (sql : String), ctesHaveAlias tree = true →
      (check tree sql).isSome = true) := by
  constructor
  · intro g t c hg
    exact mark_column_used_of_absent g t c (alookup_none_of_not_containsKey _ _ hg)
  · intro tree sql h
    have hs := runContext_isSome tree sql h
    cases hrc : runContext tree sql with
    | none => rw [hrc] at hs; cases hs
    | some ctx => simp [check, hrc]

/-- C7 (witness): the amended theorem at a concrete graph and a concrete
one-node tree. -/
theorem c7_no_panic_amended_witness :
    DependencyGraph.mark_column_used ⟨[]⟩ "a" "b" = ⟨[]⟩ ∧
    (check (TSNode.mk "query" none true ⟨0, 0⟩ "" []) "").isSome = true :=
  ⟨c7_no_panic_amended.1 ⟨[]⟩ "a" "b" (by decide),
   c7_no_panic_amended.2 (TSNode.mk "query" none true ⟨0, 0⟩ "" []) ""
     (ctesHaveAlias_leaf "query" none true ⟨0, 0⟩ "" rfl)⟩

/-- C5: star expansion produces, for every listed table with a known
schema, one clone per known column, with `table_name` overwritten to the
source table and `row`/`col` overwritten to the star's 1-based position;
tables without a known schema contribute nothing. -/
theorem c5_expand_asterisk (position : Point) (cte_names : List String)
    (ctes : List (String × List ColumnInfo)) :
    expand_asterisk position cte_names ctes =
      cte_names.flatMap (fun t =>
        match alookup ctes t with
        | some cols => cols.map (fun col =>
            { col with table_name := some t,
                       row := position.row + 1, col := position.col + 1 })
        | none => []) :=
  expand_asterisk_eq_flatMap position cte_names ctes

/-- The scan loop of `find_original_table`, phrased as a first-match
search: the first table that is either a known CTE containing an exact
base-name match or has no known schema at all. -/
theorem scanTables_eq_find (base : String)
    (ctes : List (String × List ColumnInfo)) (tables : List String) :
    scanTables base ctes tables =
      (match tables.find? (fun t =>
        match alookup ctes t with
        | some cols => cols.any (fun ci =>
            extract_column_name ci.column_name == base)
        | none => true) with
      | some t => t
      | none => "") := by
  induction tables with
  | nil => rfl
  | cons t ts ih =>
    cases h : alookup ctes t with
    | none =>
      simp [scanTables, h, List.find?_cons]
    | some cols =>
      cases ha : cols.any (fun ci => extract_column_name ci.column_name == base) with
      | true => simp [scanTables, h, List.find?_cons, ha]
      | false => simp [scanTables, h, List.find?_cons, ha, ih]

/-- C3 (counterexample): for the qualified reference `x.col1` whose
prefix `x` resolves to nothing, with one schemaless in-scope table `t1`,
the claim's case analysis yields the empty string, but the code falls
through to the unqualified scan and returns `t1`. -/
theorem c3_counterexample :
    find_original_table "x.col1" ["t1"] [] [] = "t1" ∧
    findOriginalTableClaim "x.col1" ["t1"] [] [] = "" ∧
    ("t1" : String) ≠ "" := by
  refine ⟨by decide, by decide, by decide⟩

/-- C3 (amended): as the claim states it, except that a qualified
reference whose resolved prefix names neither an in-scope table nor a
known CTE falls through to the same first-match scan as an unqualified
reference (searching by the reference's base name); the empty string is
returned only when that scan also fails. -/
theorem c3_find_original_table_amended (column : String) (tables : List String)
    (alias_map : List (String × String))
    (ctes : List (String × List ColumnInfo)) :
    find_original_table column tables alias_map ctes =
      findOriginalTableAmended column tables alias_map ctes := by
  unfold find_original_table findOriginalTableAmended
  simp only [scanTables_eq_find]

/-- C3 (witness): the amended equation evaluated at the counterexample
input and at an alias-resolved qualified reference. -/
theorem c3_find_original_table_amended_witness :
    find_original_table "x.col1" ["t1"] [] [] =
      findOriginalTableAmended "x.col1" ["t1"] [] [] ∧
    find_original_table "t.col1" ["t1"] [("t", "t1")] [] =
      findOriginalTableAmended "t.col1" ["t1"] [("t", "t1")] [] :=
  ⟨c3_find_original_table_amended "x.col1" ["t1"] [] [],
   c3_find_original_table_amended "t.col1" ["t1"] [("t", "t1")] []⟩

/-- One column of a node counts as unused exactly when its exact output
name is not in the used-set and no used entry shares its base name. -/
theorem isUsedCol_eq_false_iff (node : CTENode) (c : ColumnInfo) :
    node.isUsedCol c = false ↔
      ¬(c.column_name ∈ node.used_column_names ∨
        ∃ u ∈ node.used_column_names,
          extract_column_name u = extract_column_name c.column_name) := by
  unfold CTENode.isUsedCol
  simp [List.any_eq_true, not_or]

/-- C2: a column is collected as unused iff neither its exact output name
is in its CTE's used-set nor its base name equals the base name of some
used entry; the collected list over all CTEs is sorted ascending by
`(row, col)`. -/
theorem c2_collect_unused_spec (g : DependencyGraph) :
    List.Sorted ColumnInfo.le g.collect_unused_columns ∧
    (∀ c : ColumnInfo, c ∈ g.collect_unused_columns ↔
      ∃ p ∈ g.nodes, c ∈ p.2.columns ∧
        ¬(c.column_name ∈ p.2.used_column_names ∨
          ∃ u ∈ p.2.used_column_names,
            extract_column_name u = extract_column_name c.column_name)) := by
  constructor
  · unfold DependencyGraph.collect_unused_columns
    exact List.sorted_insertionSort _ _
  · intro c
    unfold DependencyGraph.collect_unused_columns
    rw [(List.perm_insertionSort _ _).mem_iff]
    simp only [List.mem_flatMap, List.mem_filter, Bool.not_eq_true']
    constructor
    · rintro ⟨p, hp, hc, hu⟩
      exact ⟨p, hp, hc, (isUsedCol_eq_false_iff p.2 c).mp hu⟩
    · rintro ⟨p, hp, hc, hu⟩
      exact ⟨p, hp, hc, (isUsedCol_eq_false_iff p.2 c).mpr hu⟩

/-- C4: on every context whose column index is in sync with its graph —
the shape `AnalysisContext::add_cte` maintains, and the only one `check`
ever builds — the backward-reachability worklist of `mark_used_columns`
empties within its fuel bound, even when CTEs reference each other in a
cycle (no acyclicity is assumed); a popped pair that is already marked is
skipped without marking or pushing anything, so each pair is marked at
most once, and consequently `check` always terminates on a finite tree. -/
theorem c4_mark_used_columns_terminates (ctx : AnalysisContext)
    (final_columns : List ColumnInfo) (h : ctx.SyncB = true) :
    (markUsedColumnsAux (markFuel ctx (initQueue final_columns)) ctx
      (initQueue final_columns)).isSome = true ∧
    (∀ (fuel : Nat) (t c : String) (rest : List (String × String)),
      ctx.graph.is_column_used t c = true →
      markUsedColumnsAux (fuel + 1) ctx ((t, c) :: rest) =
        markUsedColumnsAux fuel ctx rest) := by
  constructor
  · refine markAux_terminates _
      (pairUniverse ctx.cte_columns (initQueue final_columns)) ctx _ h ?_ ?_ ?_
    · intro p hp
      exact mem_pairUniverse_left _ _ p hp
    · intro p hp
      exact mem_pairUniverse_right _ _ p hp
    · unfold markFuel unmarkedCount
      omega
  · intro fuel t c rest hused
    simp [markUsedColumnsAux, hused]

/-- C4 (witness): the worklist terminates on a concrete context in which
the two CTEs `a` and `b` (hypothetically) reference each other's column. -/
theorem c4_mark_used_columns_terminates_witness :
    (AnalysisContext.mk ""
      ⟨[("a", ⟨[⟨some "b", "x", none, 1, 1⟩], []⟩),
        ("b", ⟨[⟨some "a", "x", none, 1, 2⟩], []⟩)]⟩
      [("a", [⟨some "b", "x", none, 1, 1⟩]),
       ("b", [⟨some "a", "x", none, 1, 2⟩])]).SyncB = true ∧
    (markUsedColumnsAux
      (markFuel (AnalysisContext.mk ""
        ⟨[("a", ⟨[⟨some "b", "x", none, 1, 1⟩], []⟩),
          ("b", ⟨[⟨some "a", "x", none, 1, 2⟩], []⟩)]⟩
        [("a", [⟨some "b", "x", none, 1, 1⟩]),
         ("b", [⟨some "a", "x", none, 1, 2⟩])])
        (initQueue [⟨some "a", "x", none, 1, 1⟩]))
      (AnalysisContext.mk ""
        ⟨[("a", ⟨[⟨some "b", "x", none, 1, 1⟩], []⟩),
          ("b", ⟨[⟨some "a", "x", none, 1, 2⟩], []⟩)]⟩
        [("a", [⟨some "b", "x", none, 1, 1⟩]),
         ("b", [⟨some "a", "x", none, 1, 2⟩])])
      (initQueue [⟨some "a", "x", none, 1, 1⟩])).isSome = true :=
  ⟨by decide,
   (c4_mark_used_columns_terminates
     (AnalysisContext.mk ""
       ⟨[("a", ⟨[⟨some "b", "x", none, 1, 1⟩], []⟩),
         ("b", ⟨[⟨some "a", "x", none, 1, 2⟩], []⟩)]⟩
       [("a", [⟨some "b", "x", none, 1, 1⟩]),
        ("b", [⟨some "a", "x", none, 1, 2⟩])])
     [⟨some "a", "x", none, 1, 1⟩] (by decide)).1⟩

/-- C6: a sequence of separate `check` invocations is pointwise `check`
of its input — each invocation begins from a fresh `AnalysisContext` (the
first step of `check`), so earlier runs cannot influence a later run, and
two runs on identical input produce identical, identically-ordered
diagnostics. -/
theorem c6_check_no_shared_state (inputs : List (TSNode × String))
    (t : TSNode) (s : String) :
    runChecks (inputs ++ [(t, s)]) = runChecks inputs ++ [check t s] ∧
    runChecks [(t, s), (t, s)] = [check t s, check t s] := by
  constructor
  · unfold runChecks
    simp
  · rfl

end Bqvalid
